import Mathlib

/-!
Verification of the LoRA adapter-weight aggregation core
(`server/lorax_server/adapters/lora.py` of the lorax repository).

The development shallowly embeds the data model and the operations of that
file: `LoraWeights` (per-adapter stacked low-rank blocks with a mutable
orientation toggle), `BatchLoraWeights.load` (per-batch aggregation: kernel
selection, pointer tables, rank grouping, decode-path index arrays,
position-filtered segment boundaries) and the pure helpers
(`get_scaling_factor`, `_convert_lora`, `has_adapter`).

External helpers imported by the file from `lorax_server.utils.punica`
(`BGMV_MAX_RANK`, `pad_rank`, `use_cutlass_shrink`, `orient_for_rank`,
`get_tmp_tensors`) are not part of the analysed source tree; they are
modelled from the specification, either as fixed constants or as injected
policy parameters, and each such definition says so in its doc comment.

Device tensors are modelled as a shape plus a total valuation function
together with a natural-number device address (`ptr`); `data_ptr()` returns
that address, and reorienting a block (`.transpose(...).contiguous()`)
produces a block with a fresh address.  Python dicts are modelled as
association lists in insertion order with first-match lookup.
-/

namespace Lorax

/-- A stacked device tensor block `[nLayers, d1, d2]`: a device address plus
a total valuation of the entries.  Models a contiguous `torch.Tensor` as used
by the source (only shape, entries and `data_ptr()` are relevant). -/
structure Tens (α : Type) where
  ptr : ℕ
  nLayers : ℕ
  d1 : ℕ
  d2 : ℕ
  vals : ℕ → ℕ → ℕ → α

/-- Models `t.transpose(1, 2).contiguous()`: swap the last two dims; the
copy lives at a fresh device address supplied by the caller. -/
def Tens.transpose12 (fresh : ℕ) (t : Tens α) : Tens α :=
  { ptr := fresh, nLayers := t.nLayers, d1 := t.d2, d2 := t.d1,
    vals := fun l i j => t.vals l j i }

/-- The module-level `EMPTY_TENSOR = torch.tensor([])`: a single reserved
empty tensor whose `data_ptr()` is the sentinel address used in pointer
tables.  We fix the sentinel address as `0`. -/
def EMPTY_TENSOR_ptr : ℕ := 0

/-- Embedding of `LoraConfig` (the fields the analysed code reads). -/
structure LoraConfig where
  r : ℕ
  lora_alpha : ℤ
  fan_in_fan_out : Bool
  use_rslora : Bool
  deriving DecidableEq

/-- Embedding of `LoraWeights`: one adapter's stacked A/B blocks for one
layer type.  `_weights_a`/`_weights_b` hold the blocks in the *current*
orientation; `_is_transposed` is the two-state orientation toggle.
`fresh_a`/`fresh_b` model the allocator: the device addresses that the next
reoriented copies of the A and B blocks receive (swapped with the current
addresses on each flip, so the model is deterministic). -/
structure LoraWeights (α : Type) where
  lora_a_r : ℕ
  lora_b_r : ℕ
  _use_cutlass_shrink : Bool
  _is_transposed : Bool
  _weights_a : Tens α
  _weights_b : Tens α
  adapter_config : LoraConfig
  fresh_a : ℕ
  fresh_b : ℕ

/-- Embedding of `LoraWeights._transpose_weights`: transpose the B block
always, and the A block only in the cutlass-shrink configuration, then flip
the orientation flag.  Each `.contiguous()` copy receives the pending fresh
address; the address it vacates becomes the next fresh address. -/
def LoraWeights._transpose_weights (w : LoraWeights α) : LoraWeights α :=
  { w with
    _weights_a :=
      if w._use_cutlass_shrink then Tens.transpose12 w.fresh_a w._weights_a
      else w._weights_a
    fresh_a := if w._use_cutlass_shrink then w._weights_a.ptr else w.fresh_a
    _weights_b := Tens.transpose12 w.fresh_b w._weights_b
    fresh_b := w._weights_b.ptr
    _is_transposed := !w._is_transposed }

/-- Embedding of the `weights_a` property: if the object is currently in the
transposed orientation, flip back first; return the block together with the
object's state after the access (the source mutates `self`). -/
def LoraWeights.weights_a (w : LoraWeights α) : Tens α × LoraWeights α :=
  if w._is_transposed then (w._transpose_weights._weights_a, w._transpose_weights)
  else (w._weights_a, w)

/-- Embedding of the `weights_b` property. -/
def LoraWeights.weights_b (w : LoraWeights α) : Tens α × LoraWeights α :=
  if w._is_transposed then (w._transpose_weights._weights_b, w._transpose_weights)
  else (w._weights_b, w)

/-- Embedding of the `weights_a_t` property: if the object is currently in
the load-time orientation, flip first. -/
def LoraWeights.weights_a_t (w : LoraWeights α) : Tens α × LoraWeights α :=
  if w._is_transposed then (w._weights_a, w)
  else (w._transpose_weights._weights_a, w._transpose_weights)

/-- Embedding of the `weights_b_t` property. -/
def LoraWeights.weights_b_t (w : LoraWeights α) : Tens α × LoraWeights α :=
  if w._is_transposed then (w._weights_b, w)
  else (w._transpose_weights._weights_b, w._transpose_weights)

/-- Embedding of `LoraWeights.__init__`.  `use_cutlass_shrink` (a capability
flag derived from the rank) and `orient_for_rank` (the load-time A-block
orientation) live in `lorax_server.utils.punica`, outside the analysed
sources; they are injected as parameters, per the spec's treatment of them
as kernel-implementation policies.  The per-layer matrices arrive already
stacked into one block; `lora_a_r` is `weights_a[0].size(1)` (the rank dim
of the stored, already padded A block), `lora_b_r` is `weights_b[0].size(0)`,
each defaulting to `1` when the layer list is empty (the source guards both
with `len(weights_a) > 0`).  `fresh_a`/`fresh_b` seed the address model. -/
def mkLoraWeights (use_cutlass_shrink : ℕ → Bool)
    (orient_for_rank : Tens α → ℕ → Tens α)
    (weights_a weights_b : Tens α) (adapter_config : LoraConfig)
    (fresh_a fresh_b : ℕ) : LoraWeights α :=
  let r_a := if 0 < weights_a.nLayers then weights_a.d2 else 1
  let r_b := if 0 < weights_a.nLayers then weights_b.d1 else 1
  { lora_a_r := r_a
    lora_b_r := r_b
    _use_cutlass_shrink := use_cutlass_shrink r_a
    _is_transposed := false
    _weights_a := orient_for_rank weights_a r_a
    _weights_b := weights_b
    adapter_config := adapter_config
    fresh_a := fresh_a
    fresh_b := fresh_b }

/-- Modelled from the spec: `pad_rank(w, dim=1, ...)` from
`lorax_server.utils.punica` (not under the analysed sources) pads the rank
dimension of the stacked A block up to the nearest kernel-supported size.
The supported-size policy is injected as `padRank` (spec treats it as an
implementation-dependent policy); padding appends zero entries.  The padded
copy keeps the block's address (no claim depends on the padded block's
address). -/
def padTensDim2 [Zero α] (padRank : ℕ → ℕ) (t : Tens α) : Tens α :=
  { t with
    d2 := padRank t.d2
    vals := fun l i j => if j < t.d2 then t.vals l i j else 0 }

/-- Modelled from the spec: `pad_rank(w, dim=0, ...)` applied to the per-layer
B matrices, i.e. the middle dimension of the stacked B block. -/
def padTensDim1 [Zero α] (padRank : ℕ → ℕ) (t : Tens α) : Tens α :=
  { t with
    d1 := padRank t.d1
    vals := fun l i j => if i < t.d1 then t.vals l i j else 0 }

/-- Embedding of the tail of `LoraWeights.load` (source lines 198-210): pad
the rank dimension of the assembled per-layer A/B blocks for sgmv
compatibility, update `config.r` to the padded rank when the layer list is
nonempty, and construct the `LoraWeights`.  The registry walk and scaling of
lines 157-196 produce `lora_a_stacked`/`lora_b_stacked`; sharding
(`model.shard_lora_weights`) is external and omitted (single shard). -/
def LoraWeights.load [Zero α] (use_cutlass_shrink : ℕ → Bool)
    (orient_for_rank : Tens α → ℕ → Tens α) (padRank : ℕ → ℕ)
    (lora_a_stacked lora_b_stacked : Tens α) (config : LoraConfig)
    (fresh_a fresh_b : ℕ) : LoraWeights α :=
  let lora_a' := padTensDim2 padRank lora_a_stacked
  let lora_b' := padTensDim1 padRank lora_b_stacked
  let config' :=
    if 0 < lora_a'.nLayers then { config with r := lora_a'.d2 } else config
  mkLoraWeights use_cutlass_shrink orient_for_rank lora_a' lora_b' config'
    fresh_a fresh_b

/-- Embedding of `get_scaling_factor`: `lora_alpha / r**0.5` under
rank-stabilised scaling, `lora_alpha / r` otherwise (idealising the float
computation over the reals). -/
noncomputable def get_scaling_factor (lora_alpha : ℤ) (r : ℕ)
    (uses_rslora : Bool) : ℝ :=
  if uses_rslora then (lora_alpha : ℝ) / Real.sqrt (r : ℝ)
  else (lora_alpha : ℝ) / (r : ℝ)

/-- Embedding of the per-layer merge step of `LoraWeights.load` (source
lines 193-196), A side: `lora_a_list[i] = lora_a.transpose(0, 1)` — the A
matrix is stored transposed and unscaled. -/
def mergedLoraA {rk h : ℕ} (lora_a : Matrix (Fin rk) (Fin h) ℝ) :
    Matrix (Fin h) (Fin rk) ℝ :=
  lora_a.transpose

/-- Embedding of the per-layer merge step of `LoraWeights.load` (source
lines 193-196), B side: `lora_b_list[i] = lora_b.transpose(0, 1) * scale` —
the scaling factor is multiplied into the B matrix at load time. -/
noncomputable def mergedLoraB {rk o : ℕ} (scale : ℝ)
    (lora_b : Matrix (Fin o) (Fin rk) ℝ) : Matrix (Fin rk) (Fin o) ℝ :=
  scale • lora_b.transpose

/-! Batch aggregation (`BatchLoraWeights`) -/

/-- Modelled from the spec: `BGMV_MAX_RANK` from `lorax_server.utils.punica`
(not under the analysed sources) — the fixed rank capacity of the per-token
("bgmv") kernel.  The kernel-choice policy only compares against it; the
punica bgmv kernels support ranks up to 64. -/
def BGMV_MAX_RANK : ℕ := 64

/-- Modelled from the spec: `get_tmp_tensors(nsegments, lora_rank, device)`
from `lorax_server.utils.punica` (not under the analysed sources) — allocates
the shrink and expand scratch buffers for the sgmv kernel, sized by a fixed
rule shared with the kernel from the group's segment count and rank.  We
record the buffers by their size; the exact sizing rule is external and no
claim depends on it, so it is represented by `nsegments * rank`. -/
def get_tmp_tensors (nsegments rank : ℕ) : ℕ × ℕ :=
  (nsegments * rank, nsegments * rank)

/-- Association-list lookup with first-match semantics: the model of Python
dict lookup `d[k]` / `k in d` for integer-keyed dicts in insertion order. -/
def alookup {β : Type} : List (ℕ × β) → ℕ → Option β
  | [], _ => none
  | (k, v) :: rest, a => if k = a then some v else alookup rest a

/-- Key deduplication keeping first occurrences, in order: the key sequence
produced by a Python dict comprehension iterating the given keys. -/
def dedupFirst : List ℕ → List ℕ
  | [] => []
  | x :: xs => x :: dedupFirst (xs.filter (fun y => y ≠ x))
termination_by l => l.length
decreasing_by
  simp only [List.length_cons]
  exact Nat.lt_succ_of_le (List.length_filter_le _ _)

/-- Model of a Python dict comprehension `{k: f(k) for k in keys if f(k)}`
whose value depends only on the key: one entry per distinct key, in
first-occurrence order, keys with `f k = none` skipped. -/
def dictComp {β : Type} (keys : List ℕ) (f : ℕ → Option β) : List (ℕ × β) :=
  (dedupFirst keys).filterMap (fun k => (f k).map (fun v => (k, v)))

/-- The `AdapterWeights` values handed to `BatchLoraWeights.load`: either a
plain `LoraWeights`, a wrapper object exposing a `lora_weights` attribute
(unwrapped by `_convert_lora`), or some other adapter type (dropped by the
`isinstance(v, LoraWeights)` filter). -/
inductive AdapterWeightsT (α : Type) where
  | lora (w : LoraWeights α)
  | wrappedLora (w : LoraWeights α)
  | other

/-- Embedding of `_convert_lora`: unwrap a wrapper carrying a
`lora_weights` attribute down to the underlying `LoraWeights`. -/
def _convert_lora : AdapterWeightsT α → AdapterWeightsT α
  | .wrappedLora w => .lora w
  | v => v

/-- The first two lines of `BatchLoraWeights.load`: map `_convert_lora` over
the values, then keep only the `LoraWeights` instances. -/
def filteredAdapters (m : List (ℕ × AdapterWeightsT α)) :
    List (ℕ × LoraWeights α) :=
  (m.map (fun kv => (kv.1, _convert_lora kv.2))).filterMap
    (fun kv => match kv.2 with
      | .lora w => some (kv.1, w)
      | _ => none)

/-- Embedding of `AdapterBatchMetadata` (the fields the analysed code
reads): one adapter identifier per contiguous token segment, the token
offset boundaries (length: segments + 1), and the per-token adapter
identifiers. -/
structure AdapterBatchMetadata where
  segment_indices : List ℕ
  adapter_segments : List ℕ
  adapter_indices : List ℕ

/-- Embedding of `RankSegments`.  The prefill-path fields
(`tmp_shrink`/`tmp_expand`, recorded by buffer size, and
`segment_starts`/`segment_ends`) and the decode-path field (`indices`) are
`none` on the path that does not populate them, as in the source. -/
structure RankSegments where
  rank : ℕ
  lora_a_ptr : List ℕ
  lora_b_ptr : List ℕ
  tmp_shrink : Option ℕ
  tmp_expand : Option ℕ
  segment_starts : Option (List ℕ)
  segment_ends : Option (List ℕ)
  indices : Option (List ℤ)
  deriving DecidableEq

/-- Embedding of `BatchLoraWeights` (the per-layer, per-batch aggregate). -/
structure BatchLoraWeights (α : Type) where
  lora_a : List (ℕ × Tens α)
  lora_b : List (ℕ × Tens α)
  adapter_index_configs : List (ℕ × LoraConfig)
  rank_data : List (ℕ × RankSegments)
  use_sgmv : Bool
  layer_name : String
  prefill_head_indices : Option (List ℕ)

/-- Embedding of `BatchLoraWeights.has_adapter`:
`adapter_index in self.adapter_index_configs`. -/
def BatchLoraWeights.has_adapter (b : BatchLoraWeights α)
    (adapter_index : ℕ) : Bool :=
  (alookup b.adapter_index_configs adapter_index).isSome

/-- The state of one adapter after the accesses of source lines 268 and
271-272: reading `weights_a` and then `weights_b` leaves the adapter in the
load-time orientation. -/
def normalizeOne (w : LoraWeights α) : LoraWeights α :=
  ((w.weights_a).2.weights_b).2

/-- Orientation normalisation performed by the accesses at source lines
268 and 271-272, over the whole adapter dict.  (The source only touches the
first and the participating adapters; normalising every value is
observationally identical, since untouched adapters are never read
again.) -/
def normalizeAll (aw : List (ℕ × LoraWeights α)) :
    List (ℕ × LoraWeights α) :=
  aw.map (fun kv => (kv.1, normalizeOne kv.2))

/-- Pointer freshness of one adapter: none of its block addresses — current
or pending for the next reorientation — collides with the empty-tensor
sentinel address.  Real allocations never return the reserved empty
tensor's storage, which is what the sentinel test of the pointer tables
relies on. -/
def FreshPtrs (w : LoraWeights α) : Prop :=
  w._weights_a.ptr ≠ EMPTY_TENSOR_ptr ∧ w._weights_b.ptr ≠ EMPTY_TENSOR_ptr
    ∧ w.fresh_a ≠ EMPTY_TENSOR_ptr ∧ w.fresh_b ≠ EMPTY_TENSOR_ptr

instance {α : Type} (w : LoraWeights α) : Decidable (FreshPtrs w) :=
  inferInstanceAs (Decidable (w._weights_a.ptr ≠ EMPTY_TENSOR_ptr
    ∧ w._weights_b.ptr ≠ EMPTY_TENSOR_ptr
    ∧ w.fresh_a ≠ EMPTY_TENSOR_ptr ∧ w.fresh_b ≠ EMPTY_TENSOR_ptr))

/-- Embedding of `segment_ranks` (source line 274): the `lora_a_r` of each
segment's adapter, in segment order, skipping segments whose adapter has no
weights for this layer. -/
def segmentRanks (aw : List (ℕ × LoraWeights α))
    (segment_indices : List ℕ) : List ℕ :=
  segment_indices.filterMap
    (fun idx => (alookup aw idx).map (fun w => w.lora_a_r))

/-- Embedding of the A-side pointer table (source lines 281-288 for the sgmv
branch, 299-306 for the bgmv branch): one entry per batch segment, the
`data_ptr()` of the segment's adapter's A block — in the load-time
orientation (`weights_a`) when `use_sgmv`, in the transposed orientation
(`weights_a_t`) otherwise — or the empty-tensor sentinel address when the
segment's adapter has no weights for this layer.  `awn` is the dict after
the normalising accesses of lines 268-272. -/
def loraAPtrTable (awn : List (ℕ × LoraWeights α))
    (segment_indices : List ℕ) (use_sgmv : Bool) : List ℕ :=
  segment_indices.map (fun idx =>
    match alookup awn idx with
    | some w => if use_sgmv then ((w.weights_a).1).ptr
                else ((w.weights_a_t).1).ptr
    | none => EMPTY_TENSOR_ptr)

/-- Embedding of the B-side pointer table (source lines 289-296 and
307-314). -/
def loraBPtrTable (awn : List (ℕ × LoraWeights α))
    (segment_indices : List ℕ) (use_sgmv : Bool) : List ℕ :=
  segment_indices.map (fun idx =>
    match alookup awn idx with
    | some w => if use_sgmv then ((w.weights_b).1).ptr
                else ((w.weights_b_t).1).ptr
    | none => EMPTY_TENSOR_ptr)

/-- One `defaultdict(list)` append: `m[k].append(v)`, creating the key at
the end (Python dict insertion order) if absent. -/
def dappend (m : List (ℕ × List ℕ)) (k : ℕ) (v : ℕ) : List (ℕ × List ℕ) :=
  match m with
  | [] => [(k, [v])]
  | (k', vs) :: rest =>
      if k' = k then (k', vs ++ [v]) :: rest else (k', vs) :: dappend rest k v

/-- Embedding of the `rank_indices` loop (source lines 320-324): walk the
segments with their positions, skipping non-participating segments, and
append each remaining position to the list of its adapter's `lora_a_r`. -/
def rank_indices_loop (aw : List (ℕ × LoraWeights α)) :
    List ℕ → ℕ → List (ℕ × List ℕ) → List (ℕ × List ℕ)
  | [], _, m => m
  | adapter_idx :: rest, segment_idx, m =>
      match alookup aw adapter_idx with
      | none => rank_indices_loop aw rest (segment_idx + 1) m
      | some w => rank_indices_loop aw rest (segment_idx + 1)
          (dappend m w.lora_a_r segment_idx)

/-- The `rank_indices` mapping of `BatchLoraWeights.load`: rank value to the
list of segment positions having that rank, both in first-occurrence
order. -/
def rankIndices (aw : List (ℕ × LoraWeights α))
    (segment_indices : List ℕ) : List (ℕ × List ℕ) :=
  rank_indices_loop aw segment_indices 0 []

/-- Spec-side description of the union of the rank groups: the positions
(counted from `pos`) of the segments whose adapter has weights for this
layer. -/
def partPositions (aw : List (ℕ × LoraWeights α)) :
    List ℕ → ℕ → List ℕ
  | [], _ => []
  | idx :: rest, pos =>
      if (alookup aw idx).isSome then pos :: partPositions aw rest (pos + 1)
      else partPositions aw rest (pos + 1)

/-- Spec-side description of one rank group: the positions (counted from
`pos`) of the segments whose adapter participates with `lora_a_r = k`. -/
def rankPositions (aw : List (ℕ × LoraWeights α)) (k : ℕ) :
    List ℕ → ℕ → List ℕ
  | [], _ => []
  | idx :: rest, pos =>
      match alookup aw idx with
      | some w =>
          if w.lora_a_r = k then pos :: rankPositions aw k rest (pos + 1)
          else rankPositions aw k rest (pos + 1)
      | none => rankPositions aw k rest (pos + 1)

/-- Embedding of the `idx_locs` loop (source lines 360-365): map each
adapter identifier occurring in this rank group's segments to the first
location at which it occurs in the group's position list `indices`. -/
def idx_locs_loop (segment_indices : List ℕ) :
    List ℕ → ℕ → List (ℕ × ℕ) → List (ℕ × ℕ)
  | [], _, m => m
  | i :: rest, loc, m =>
      let sidx := segment_indices.getD i 0
      let m' := if (alookup m sidx).isSome then m else m ++ [(sidx, loc)]
      idx_locs_loop segment_indices rest (loc + 1) m'

/-- Spec-side first occurrence: the location (counted from `loc`) of the
first entry of the position list `l` whose segment carries adapter
identifier `a`, if any. -/
def firstIdxFrom (segment_indices : List ℕ) (a : ℕ) :
    List ℕ → ℕ → Option ℕ
  | [], _ => none
  | i :: rest, loc =>
      if segment_indices.getD i 0 = a then some loc
      else firstIdxFrom segment_indices a rest (loc + 1)

/-- Embedding of the decode-path per-token index array (source lines
367-375): for each token's adapter identifier, its first location in the
group's position list when the adapter participates at this group's rank,
else the sentinel `-1`.  (A participating, rank-matching identifier absent
from `segment_indices` would raise `KeyError` in the source; that cannot
occur for consistent metadata, and the model returns `-1` there.) -/
def batchIndices (aw : List (ℕ × LoraWeights α)) (segment_indices : List ℕ)
    (rank : ℕ) (indices : List ℕ) (adapter_indices : List ℕ) : List ℤ :=
  let idx_locs := idx_locs_loop segment_indices indices 0 []
  adapter_indices.map (fun idx =>
    match alookup aw idx with
    | some w =>
        if w.lora_a_r = rank then
          ((alookup idx_locs idx).map Int.ofNat).getD (-1)
        else (-1 : ℤ)
    | none => (-1 : ℤ))

/-- Embedding of the position-filtered boundary loop (source lines
327-335), with the growing `prefill_head_segment_starts` /
`prefill_head_segment_ends` lists carried in reverse (their last element is
the head of the accumulator).  `j` is the index of the next raw metadata
boundary, as in the source. -/
def prefillHeadLoop (segs : List ℕ) :
    List ℕ → ℕ → List ℕ → List ℕ → List ℕ × List ℕ
  | [], _, srev, erev => (srev.reverse, erev.reverse)
  | head_index :: rest, j, srev, erev =>
      if head_index < segs.getD j 0 then
        prefillHeadLoop segs rest j srev ((erev.headD 0 + 1) :: erev.tail)
      else
        prefillHeadLoop segs rest (j + 1) (erev.headD 0 :: srev)
          ((erev.headD 0 + 1) :: erev)

/-- The position-filtered segment boundaries: start the walk with
`j, starts, ends = 1, [0], [0]` as in the source. -/
def prefillHeadSegments (segs : List ℕ) (heads : List ℕ) :
    List ℕ × List ℕ :=
  prefillHeadLoop segs heads 1 [0] [0]

/-- Embedding of the `rank_data` construction (source lines 337-386).  On
the sgmv path: slice both pointer tables by the group's positions, allocate
the scratch buffers, and take per-segment token ranges from the raw
metadata boundaries — every entry of which is then overwritten from the
position-filtered boundaries when a selected-position list is present
(lines 350-353; the overwrite covers every entry, so it equals the map over
the filtered boundaries).  On the bgmv path: slice the pointer tables and
build the whole-batch per-token index array. -/
def buildRankSegment (aw : List (ℕ × LoraWeights α))
    (meta : AdapterBatchMetadata) (use_sgmv : Bool)
    (lora_a_ptr lora_b_ptr : List ℕ) (ph : Option (List ℕ × List ℕ))
    (rank : ℕ) (indices : List ℕ) : RankSegments :=
  if use_sgmv then
    let lora_a_ptr_indices := indices.map (fun i => lora_a_ptr.getD i 0)
    let lora_b_ptr_indices := indices.map (fun i => lora_b_ptr.getD i 0)
    let tmp := get_tmp_tensors lora_a_ptr_indices.length rank
    let segment_starts :=
      match ph with
      | none => indices.map (fun i => meta.adapter_segments.getD i 0)
      | some p => indices.map (fun i => p.1.getD i 0)
    let segment_ends :=
      match ph with
      | none => indices.map (fun i => meta.adapter_segments.getD (i + 1) 0)
      | some p => indices.map (fun i => p.2.getD i 0)
    { rank := rank
      lora_a_ptr := lora_a_ptr_indices
      lora_b_ptr := lora_b_ptr_indices
      tmp_shrink := some tmp.1
      tmp_expand := some tmp.2
      segment_starts := some segment_starts
      segment_ends := some segment_ends
      indices := none }
  else
    { rank := rank
      lora_a_ptr := indices.map (fun i => lora_a_ptr.getD i 0)
      lora_b_ptr := indices.map (fun i => lora_b_ptr.getD i 0)
      tmp_shrink := none
      tmp_expand := none
      segment_starts := none
      segment_ends := none
      indices := some (batchIndices aw meta.segment_indices rank
        indices meta.adapter_indices) }

/-- The `rank_data` mapping: one `RankSegments` per rank group, keyed by the
group's rank, in first-occurrence order of the ranks. -/
def buildRankData (aw : List (ℕ × LoraWeights α))
    (meta : AdapterBatchMetadata) (use_sgmv : Bool)
    (lora_a_ptr lora_b_ptr : List ℕ) (ph : Option (List ℕ × List ℕ)) :
    List (ℕ × RankSegments) :=
  (rankIndices aw meta.segment_indices).map (fun ri =>
    (ri.1, buildRankSegment aw meta use_sgmv lora_a_ptr lora_b_ptr ph
      ri.1 ri.2))

/-- Embedding of `BatchLoraWeights.load`.  Returns `none` ("no adapters
active") when no input value is a `LoraWeights` after unwrapping, or when no
batch segment's adapter is among the remaining ones; otherwise assembles the
aggregation exactly as the source does. -/
def BatchLoraWeights.load (adapter_weights : List (ℕ × AdapterWeightsT α))
    (meta : AdapterBatchMetadata) (layer_name : String) (prefill : Bool)
    (prefill_head_indices : Option (List ℕ)) :
    Option (BatchLoraWeights α) :=
  let aw := filteredAdapters adapter_weights
  if aw.isEmpty then none
  else
    let awn := normalizeAll aw
    let segment_indices := meta.segment_indices
    let lora_a := dictComp segment_indices
      (fun idx => (alookup awn idx).map (fun w => w._weights_a))
    let lora_b := dictComp segment_indices
      (fun idx => (alookup awn idx).map (fun w => w._weights_b))
    let segment_ranks := segmentRanks aw segment_indices
    if segment_ranks.isEmpty then none
    else
      let max_rank := segment_ranks.foldl Nat.max 0
      let use_sgmv := prefill || decide (BGMV_MAX_RANK < max_rank)
      let lora_a_ptr := loraAPtrTable awn segment_indices use_sgmv
      let lora_b_ptr := loraBPtrTable awn segment_indices use_sgmv
      let adapter_index_configs := dictComp segment_indices
        (fun idx => (alookup aw idx).map (fun w => w.adapter_config))
      let ph := prefill_head_indices.map
        (fun heads => prefillHeadSegments meta.adapter_segments heads)
      let rank_data := buildRankData aw meta use_sgmv lora_a_ptr
        lora_b_ptr ph
      some { lora_a := lora_a
             lora_b := lora_b
             adapter_index_configs := adapter_index_configs
             rank_data := rank_data
             use_sgmv := use_sgmv
             layer_name := layer_name
             prefill_head_indices := prefill_head_indices }

/-- The maximum participating rank of a batch (source line 278), as a
function of the inputs. -/
def maxRankOf (adapter_weights : List (ℕ × AdapterWeightsT α))
    (meta : AdapterBatchMetadata) : ℕ :=
  (segmentRanks (filteredAdapters adapter_weights)
    meta.segment_indices).foldl Nat.max 0

/-! Concrete example batch used by the witnesses: two adapters with ranks 8
and 16 on segments `[adapter 0 : tokens 0-5, adapter 1 : tokens 5-9,
adapter 0 : tokens 9-12]`, plus a third segment-less configuration used for
absent-adapter cases. -/

/-- A concrete stacked A block (2 layers, hidden 16, rank `r`) at address
`p`. -/
def exTensA (p r : ℕ) : Tens ℕ := ⟨p, 2, 16, r, fun _ _ _ => 1⟩

/-- A concrete stacked B block (2 layers, rank `r`, hidden 16) at address
`p`. -/
def exTensB (p r : ℕ) : Tens ℕ := ⟨p, 2, r, 16, fun _ _ _ => 1⟩

/-- Concrete rank-8 adapter. -/
def exW8 : LoraWeights ℕ :=
  { lora_a_r := 8, lora_b_r := 8, _use_cutlass_shrink := true,
    _is_transposed := false, _weights_a := exTensA 100 8,
    _weights_b := exTensB 200 8,
    adapter_config := ⟨8, 16, false, false⟩, fresh_a := 101, fresh_b := 201 }

/-- Concrete rank-16 adapter (handed to `load` in wrapped form). -/
def exW16 : LoraWeights ℕ :=
  { lora_a_r := 16, lora_b_r := 16, _use_cutlass_shrink := true,
    _is_transposed := false, _weights_a := exTensA 300 16,
    _weights_b := exTensB 400 16,
    adapter_config := ⟨16, 16, false, false⟩, fresh_a := 301,
    fresh_b := 401 }

/-- Concrete adapter mapping: identifier `0` is a plain `LoraWeights`,
identifier `1` a wrapped one. -/
def exAdapters : List (ℕ × AdapterWeightsT ℕ) :=
  [(0, .lora exW8), (1, .wrappedLora exW16)]

/-- Concrete batch metadata: three segments `[0, 1, 0]` over twelve
tokens. -/
def exMeta : AdapterBatchMetadata :=
  { segment_indices := [0, 1, 0], adapter_segments := [0, 5, 9, 12],
    adapter_indices := [0, 0, 0, 0, 0, 1, 1, 1, 1, 0, 0, 0] }

/-- Concrete batch metadata containing a segment (adapter identifier `7`)
whose adapter has no weights for this layer. -/
def exMetaAbsent : AdapterBatchMetadata :=
  { segment_indices := [0, 7, 1], adapter_segments := [0, 5, 9, 12],
    adapter_indices := [0, 0, 0, 0, 0, 7, 7, 7, 7, 1, 1, 1] }

/-- The rank-8 `RankSegments` record produced for `exAdapters`/`exMeta` on
the decode path: pointer slices of the transposed blocks for segment
positions 0 and 2, and the per-token index array. -/
def exRS8 : RankSegments :=
  { rank := 8, lora_a_ptr := [101, 101], lora_b_ptr := [201, 201],
    tmp_shrink := none, tmp_expand := none, segment_starts := none,
    segment_ends := none,
    indices := some [0, 0, 0, 0, 0, -1, -1, -1, -1, 0, 0, 0] }

/-- A concrete padding policy instance: round the rank up to the next
multiple of 8 (one possible kernel-supported-size policy; the spec leaves
the supported set implementation-defined). -/
def cexPadRank (r : ℕ) : ℕ := 8 * ((r + 7) / 8)

/-- A concrete pre-padding stacked A block of rank 4 (1 layer, hidden
16). -/
def cexA4 : Tens ℕ := ⟨500, 1, 16, 4, fun _ _ _ => 1⟩

/-- The matching pre-padding stacked B block of rank 4. -/
def cexB4 : Tens ℕ := ⟨600, 1, 4, 16, fun _ _ _ => 1⟩

/-- The adapter's config before loading: original (pre-padding) rank 4. -/
def cexConfig4 : LoraConfig := ⟨4, 8, false, false⟩

/-- The adapter produced by `LoraWeights.load` from the rank-4 blocks under
the pad-to-multiple-of-8 policy: its stored rank (`lora_a_r`) is the padded
rank 8, not the pre-padding rank 4. -/
def cexW4 : LoraWeights ℕ :=
  LoraWeights.load (fun _ => true) (fun t _ => t) cexPadRank cexA4 cexB4
    cexConfig4 901 902

/-- A one-adapter dict holding the padded rank-4 adapter. -/
def cexAw : List (ℕ × LoraWeights ℕ) := [(0, cexW4)]

/-- The rank-8 `RankSegments` record produced for `exAdapters`/`exMeta` on
the prefill path with selected positions `[0, 3, 5, 7, 9]`: pointer slices
of the load-time blocks for positions 0 and 2, scratch sizes, and the
position-filtered token ranges. -/
def exRS8sg : RankSegments :=
  { rank := 8, lora_a_ptr := [100, 100], lora_b_ptr := [200, 200],
    tmp_shrink := some 16, tmp_expand := some 16,
    segment_starts := some [0, 4], segment_ends := some [2, 5],
    indices := none }

/-! Basic lemmas about the dict model -/

theorem alookup_cons {β : Type} (k : ℕ) (v : β) (rest : List (ℕ × β))
    (a : ℕ) :
    alookup ((k, v) :: rest) a = if k = a then some v else alookup rest a :=
  rfl

theorem alookup_append {β : Type} (m₁ m₂ : List (ℕ × β)) (a : ℕ) :
    alookup (m₁ ++ m₂) a =
      ((alookup m₁ a).map some).getD (alookup m₂ a) := by
  induction m₁ with
  | nil => rfl
  | cons kv rest ih =>
      obtain ⟨k, v⟩ := kv
      by_cases hk : k = a <;> simp [alookup_cons, hk, ih]

theorem alookup_filterMapDict {β : Type} (ks : List ℕ) (f : ℕ → Option β)
    (k : ℕ) :
    alookup (ks.filterMap (fun x => (f x).map (fun v => (x, v)))) k =
      if k ∈ ks then f k else none := by
  induction ks with
  | nil => simp [alookup]
  | cons a ks ih =>
      cases hfa : f a with
      | none =>
          simp only [List.filterMap_cons, hfa, Option.map_none']
          rw [ih]
          by_cases hk : k = a
            <;> by_cases hmem : k ∈ ks
            <;> simp [hk, hmem, hfa]
      | some v =>
          simp only [List.filterMap_cons, hfa, Option.map_some']
          by_cases hk : a = k
          · subst hk
            simp [alookup_cons, hfa]
          · rw [alookup_cons, if_neg hk, ih]
            have : (k ∈ a :: ks) ↔ k ∈ ks := by
              simp [Ne.symm hk]
            simp [this]

theorem mem_dedupFirst (l : List ℕ) (k : ℕ) : k ∈ dedupFirst l ↔ k ∈ l := by
  induction l using dedupFirst.induct with
  | case1 => simp [dedupFirst]
  | case2 x xs ih =>
      rw [dedupFirst]
      by_cases hk : k = x
      · simp [hk]
      · simp only [List.mem_cons, hk, false_or, ih, List.mem_filter]
        simp [hk]

theorem alookup_dictComp {β : Type} (keys : List ℕ) (f : ℕ → Option β)
    (k : ℕ) :
    alookup (dictComp keys f) k = if k ∈ keys then f k else none := by
  unfold dictComp
  rw [alookup_filterMapDict]
  simp [mem_dedupFirst]

/-! Claims C1, C7, C10 -/

/-- Claim C1: for every successful `BatchLoraWeights.load`, the
kernel-choice flag `use_sgmv` is true exactly when the step is a prefill
step or the maximum participating rank exceeds `BGMV_MAX_RANK` (so with
`prefill = true` it is true regardless of rank, and with `prefill = false`
and maximum rank at or below capacity it is false); the flag is a single
boolean for the whole layer/batch aggregation. -/
theorem C1_kernel_choice {α : Type}
    (adapter_weights : List (ℕ × AdapterWeightsT α))
    (meta : AdapterBatchMetadata) (layer_name : String) (prefill : Bool)
    (ph : Option (List ℕ))
    (h : (BatchLoraWeights.load adapter_weights meta layer_name prefill
      ph).isSome = true) :
    (BatchLoraWeights.load adapter_weights meta layer_name prefill ph).map
        (fun b => b.use_sgmv) =
      some (prefill ||
        decide (BGMV_MAX_RANK < maxRankOf adapter_weights meta)) := by
  cases hb : BatchLoraWeights.load adapter_weights meta layer_name prefill
      ph with
  | none => rw [hb] at h; simp at h
  | some b =>
      simp only [Option.map_some', Option.some.injEq]
      simp only [BatchLoraWeights.load] at hb
      split at hb
      · exact Option.noConfusion hb
      · split at hb
        · exact Option.noConfusion hb
        · cases hb
          rfl

/-- Claim C7: `BatchLoraWeights.load` returns `none` ("no adapters active")
whenever, after unwrapping and filtering, no adapter in the input mapping is
a `LoraWeights` for this layer, or no batch segment's adapter is among the
remaining ones.  (In the model the pointer tables, rank groups and scratch
buffers exist only under the returned `some`, so none are constructed.) -/
theorem C7_no_adapters {α : Type}
    (adapter_weights : List (ℕ × AdapterWeightsT α))
    (meta : AdapterBatchMetadata) (layer_name : String) (prefill : Bool)
    (ph : Option (List ℕ))
    (h : (filteredAdapters adapter_weights).isEmpty = true ∨
      (segmentRanks (filteredAdapters adapter_weights)
        meta.segment_indices).isEmpty = true) :
    BatchLoraWeights.load adapter_weights meta layer_name prefill ph =
      none := by
  simp only [BatchLoraWeights.load]
  rcases h with h | h
  · simp [h]
  · by_cases h1 : (filteredAdapters adapter_weights).isEmpty
    · simp [h1]
    · simp [h1, h]

/-- Claim C10: for every aggregation returned by `BatchLoraWeights.load`,
`has_adapter i` is true exactly when `i` occurs among the batch metadata's
`segment_indices` and `i`'s adapter has LoRA weights for this layer (is in
the unwrapped-and-filtered adapter mapping); an adapter loaded in the
process but absent from the current batch's segments reports false. -/
theorem C10_has_adapter {α : Type}
    (adapter_weights : List (ℕ × AdapterWeightsT α))
    (meta : AdapterBatchMetadata) (layer_name : String) (prefill : Bool)
    (ph : Option (List ℕ)) (i : ℕ)
    (h : (BatchLoraWeights.load adapter_weights meta layer_name prefill
      ph).isSome = true) :
    (BatchLoraWeights.load adapter_weights meta layer_name prefill ph).map
        (fun b => b.has_adapter i) =
      some (meta.segment_indices.contains i &&
        (alookup (filteredAdapters adapter_weights) i).isSome) := by
  cases hb : BatchLoraWeights.load adapter_weights meta layer_name prefill
      ph with
  | none => rw [hb] at h; simp at h
  | some b =>
      simp only [Option.map_some', Option.some.injEq]
      simp only [BatchLoraWeights.load] at hb
      split at hb
      · exact Option.noConfusion hb
      · split at hb
        · exact Option.noConfusion hb
        · cases hb
          show (alookup (dictComp meta.segment_indices _) i).isSome = _
          rw [alookup_dictComp]
          by_cases hmem : i ∈ meta.segment_indices
          · rw [if_pos hmem]
            have hc : meta.segment_indices.contains i = true := by
              simpa [List.contains, List.elem_eq_mem] using hmem
            rw [hc, Bool.true_and]
            cases halk : alookup (filteredAdapters adapter_weights) i
              <;> simp [halk]
          · rw [if_neg hmem]
            have hc : meta.segment_indices.contains i = false := by
              simp [List.contains, List.elem_eq_mem, hmem]
            rw [hc, Bool.false_and]
            rfl

/-- Witness for C1: on the concrete prefill batch the hypothesis holds and
the kernel choice evaluates as stated. -/
theorem C1_kernel_choice_witness :
    (BatchLoraWeights.load exAdapters exMeta "q_proj" true none).isSome =
        true ∧
      (BatchLoraWeights.load exAdapters exMeta "q_proj" true none).map
          (fun b => b.use_sgmv) =
        some (true || decide (BGMV_MAX_RANK < maxRankOf exAdapters exMeta)) :=
  ⟨by decide, C1_kernel_choice exAdapters exMeta "q_proj" true none
    (by decide)⟩

/-- Witness for C7: with an empty adapter mapping the hypothesis holds and
`load` returns `none`. -/
theorem C7_no_adapters_witness :
    ((filteredAdapters ([] : List (ℕ × AdapterWeightsT ℕ))).isEmpty = true ∨
      (segmentRanks (filteredAdapters ([] : List (ℕ × AdapterWeightsT ℕ)))
        exMeta.segment_indices).isEmpty = true) ∧
    BatchLoraWeights.load ([] : List (ℕ × AdapterWeightsT ℕ)) exMeta
      "q_proj" true none = none :=
  ⟨Or.inl (by decide), C7_no_adapters [] exMeta "q_proj" true none
    (Or.inl (by decide))⟩

/-- Witness for C10: on the concrete batch, adapter `0` is reported, and
the formula also evaluates for it. -/
theorem C10_has_adapter_witness :
    (BatchLoraWeights.load exAdapters exMeta "q_proj" true none).isSome =
        true ∧
      (BatchLoraWeights.load exAdapters exMeta "q_proj" true none).map
          (fun b => b.has_adapter 0) =
        some (exMeta.segment_indices.contains 0 &&
          (alookup (filteredAdapters exAdapters) 0).isSome) :=
  ⟨by decide, C10_has_adapter exAdapters exMeta "q_proj" true none 0
    (by decide)⟩

/-! Lemmas about orientation normalisation and pointer freshness -/

theorem alookup_mem {β : Type} (m : List (ℕ × β)) (a : ℕ) (v : β)
    (h : alookup m a = some v) : (a, v) ∈ m := by
  induction m with
  | nil => exact Option.noConfusion h
  | cons kv rest ih =>
      obtain ⟨k, u⟩ := kv
      rw [alookup_cons] at h
      by_cases hk : k = a
      · rw [if_pos hk] at h
        cases h
        subst hk
        exact List.mem_cons_self _ _
      · rw [if_neg hk] at h
        exact List.mem_cons_of_mem _ (ih h)

theorem normalizeOne_is_transposed {α : Type} (w : LoraWeights α) :
    (normalizeOne w)._is_transposed = false := by
  cases ht : w._is_transposed <;>
    simp [normalizeOne, LoraWeights.weights_a, LoraWeights.weights_b,
      LoraWeights._transpose_weights, ht]

theorem alookup_normalizeAll {α : Type} (aw : List (ℕ × LoraWeights α))
    (idx : ℕ) :
    alookup (normalizeAll aw) idx = (alookup aw idx).map normalizeOne := by
  induction aw with
  | nil => rfl
  | cons kv rest ih =>
      obtain ⟨k, v⟩ := kv
      by_cases hk : k = idx
      · simp [normalizeAll, alookup_cons, hk]
      · simpa [normalizeAll, alookup_cons, hk] using ih

theorem FreshPtrs_normalizeOne {α : Type} (w : LoraWeights α)
    (h : FreshPtrs w) : FreshPtrs (normalizeOne w) := by
  obtain ⟨h1, h2, h3, h4⟩ := h
  cases ht : w._is_transposed <;> cases hc : w._use_cutlass_shrink <;>
    simp [normalizeOne, LoraWeights.weights_a, LoraWeights.weights_b,
      LoraWeights._transpose_weights, Tens.transpose12, FreshPtrs, ht, hc,
      h1, h2, h3, h4]

theorem access_ptrs_ne {α : Type} (u : LoraWeights α)
    (hu : u._is_transposed = false) (hf : FreshPtrs u) :
    ((u.weights_a).1).ptr ≠ EMPTY_TENSOR_ptr
    ∧ ((u.weights_b).1).ptr ≠ EMPTY_TENSOR_ptr
    ∧ ((u.weights_a_t).1).ptr ≠ EMPTY_TENSOR_ptr
    ∧ ((u.weights_b_t).1).ptr ≠ EMPTY_TENSOR_ptr := by
  obtain ⟨h1, h2, h3, h4⟩ := hf
  cases hc : u._use_cutlass_shrink <;>
    simp [LoraWeights.weights_a, LoraWeights.weights_b,
      LoraWeights.weights_a_t, LoraWeights.weights_b_t,
      LoraWeights._transpose_weights, Tens.transpose12, hu, hc, h1, h2, h3,
      h4]

theorem getD_map_of_lt {β γ : Type} (f : β → γ) (l : List β) (i : ℕ)
    (d : γ) (d' : β) (hi : i < l.length) :
    (l.map f).getD i d = f (l.getD i d') := by
  induction l generalizing i with
  | nil => simp at hi
  | cons x xs ih =>
      cases i with
      | zero => simp
      | succ n =>
          simp only [List.map_cons, List.getD_cons_succ]
          exact ih n (by simpa using hi)

/-! Claim C3 -/

/-- Claim C3: for a batch with `N` segments, the A and B pointer tables
built by `BatchLoraWeights.load` each have exactly `N` entries in segment
order; provided no adapter block address collides with the empty-tensor
sentinel, entry `i` equals the sentinel address exactly when segment `i`'s
adapter is absent from the layer's loaded-adapter set; a participating
entry holds the device address of that segment's adapter's A (resp. B)
block — in the load-time orientation when `use_sgmv` is true and in the
transposed orientation when `use_sgmv` is false. -/
theorem C3_pointer_tables {α : Type}
    (adapter_weights : List (ℕ × AdapterWeightsT α))
    (meta : AdapterBatchMetadata) (sg : Bool)
    (hfresh : ∀ kv ∈ filteredAdapters adapter_weights, FreshPtrs kv.2) :
    (loraAPtrTable (normalizeAll (filteredAdapters adapter_weights))
        meta.segment_indices sg).length = meta.segment_indices.length
    ∧ (loraBPtrTable (normalizeAll (filteredAdapters adapter_weights))
        meta.segment_indices sg).length = meta.segment_indices.length
    ∧ ∀ i, i < meta.segment_indices.length →
        (((loraAPtrTable (normalizeAll (filteredAdapters adapter_weights))
            meta.segment_indices sg).getD i 0 = EMPTY_TENSOR_ptr
          ↔ alookup (filteredAdapters adapter_weights)
              (meta.segment_indices.getD i 0) = none)
        ∧ ((loraBPtrTable (normalizeAll (filteredAdapters adapter_weights))
            meta.segment_indices sg).getD i 0 = EMPTY_TENSOR_ptr
          ↔ alookup (filteredAdapters adapter_weights)
              (meta.segment_indices.getD i 0) = none)
        ∧ ∀ w, alookup (filteredAdapters adapter_weights)
              (meta.segment_indices.getD i 0) = some w →
            (loraAPtrTable (normalizeAll (filteredAdapters adapter_weights))
                meta.segment_indices sg).getD i 0
              = (if sg then (((normalizeOne w).weights_a).1).ptr
                 else (((normalizeOne w).weights_a_t).1).ptr)
            ∧ (loraBPtrTable (normalizeAll (filteredAdapters
                adapter_weights)) meta.segment_indices sg).getD i 0
              = (if sg then (((normalizeOne w).weights_b).1).ptr
                 else (((normalizeOne w).weights_b_t).1).ptr)) := by
  refine ⟨List.length_map _ _, List.length_map _ _, fun i hi => ?_⟩
  have ha : (loraAPtrTable (normalizeAll (filteredAdapters adapter_weights))
      meta.segment_indices sg).getD i 0
      = (match alookup (normalizeAll (filteredAdapters adapter_weights))
            (meta.segment_indices.getD i 0) with
        | some w => if sg then ((w.weights_a).1).ptr
                    else ((w.weights_a_t).1).ptr
        | none => EMPTY_TENSOR_ptr) :=
    getD_map_of_lt _ meta.segment_indices i 0 0 hi
  have hbp : (loraBPtrTable (normalizeAll (filteredAdapters adapter_weights))
      meta.segment_indices sg).getD i 0
      = (match alookup (normalizeAll (filteredAdapters adapter_weights))
            (meta.segment_indices.getD i 0) with
        | some w => if sg then ((w.weights_b).1).ptr
                    else ((w.weights_b_t).1).ptr
        | none => EMPTY_TENSOR_ptr) :=
    getD_map_of_lt _ meta.segment_indices i 0 0 hi
  cases halk : alookup (filteredAdapters adapter_weights)
      (meta.segment_indices.getD i 0) with
  | none =>
      have hnr : alookup (normalizeAll (filteredAdapters adapter_weights))
          (meta.segment_indices.getD i 0) = none := by
        rw [alookup_normalizeAll, halk]; rfl
      refine ⟨?_, ?_, fun w hw => Option.noConfusion hw⟩
      · rw [ha, hnr]
        simp
      · rw [hbp, hnr]
        simp
  | some v =>
      have hnr : alookup (normalizeAll (filteredAdapters adapter_weights))
          (meta.segment_indices.getD i 0) = some (normalizeOne v) := by
        rw [alookup_normalizeAll, halk]; rfl
      have hfv : FreshPtrs v := hfresh _ (alookup_mem _ _ _ halk)
      have hfn : FreshPtrs (normalizeOne v) := FreshPtrs_normalizeOne v hfv
      have hne := access_ptrs_ne (normalizeOne v)
        (normalizeOne_is_transposed v) hfn
      refine ⟨?_, ?_, ?_⟩
      · rw [ha, hnr]
        refine iff_of_false ?_ (by simp)
        cases sg
        · simpa using hne.2.2.1
        · simpa using hne.1
      · rw [hbp, hnr]
        refine iff_of_false ?_ (by simp)
        cases sg
        · simpa using hne.2.2.2
        · simpa using hne.2.1
      · intro w hw
        cases hw
        exact ⟨by rw [ha, hnr], by rw [hbp, hnr]⟩

/-- Witness for C3: the pointer-table properties on the concrete batch
containing an absent adapter (identifier 7), under the prefill
orientation. -/
theorem C3_pointer_tables_witness :
    (∀ kv ∈ filteredAdapters exAdapters, FreshPtrs kv.2) ∧
    ((loraAPtrTable (normalizeAll (filteredAdapters exAdapters))
        exMetaAbsent.segment_indices true).length
      = exMetaAbsent.segment_indices.length
    ∧ (loraBPtrTable (normalizeAll (filteredAdapters exAdapters))
        exMetaAbsent.segment_indices true).length
      = exMetaAbsent.segment_indices.length
    ∧ ∀ i, i < exMetaAbsent.segment_indices.length →
        (((loraAPtrTable (normalizeAll (filteredAdapters exAdapters))
            exMetaAbsent.segment_indices true).getD i 0 = EMPTY_TENSOR_ptr
          ↔ alookup (filteredAdapters exAdapters)
              (exMetaAbsent.segment_indices.getD i 0) = none)
        ∧ ((loraBPtrTable (normalizeAll (filteredAdapters exAdapters))
            exMetaAbsent.segment_indices true).getD i 0 = EMPTY_TENSOR_ptr
          ↔ alookup (filteredAdapters exAdapters)
              (exMetaAbsent.segment_indices.getD i 0) = none)
        ∧ ∀ w, alookup (filteredAdapters exAdapters)
              (exMetaAbsent.segment_indices.getD i 0) = some w →
            (loraAPtrTable (normalizeAll (filteredAdapters exAdapters))
                exMetaAbsent.segment_indices true).getD i 0
              = (if true then (((normalizeOne w).weights_a).1).ptr
                 else (((normalizeOne w).weights_a_t).1).ptr)
            ∧ (loraBPtrTable (normalizeAll (filteredAdapters exAdapters))
                exMetaAbsent.segment_indices true).getD i 0
              = (if true then (((normalizeOne w).weights_b).1).ptr
                 else (((normalizeOne w).weights_b_t).1).ptr))) :=
  ⟨by decide, C3_pointer_tables exAdapters exMetaAbsent true (by decide)⟩

/-! Claims C6 and C8 -/

/-- Claim C6: the load-time scaling factor is `alpha / rank` without
rank-stabilised scaling and `alpha / sqrt rank` with it; `LoraWeights.load`
multiplies it into the B matrix only (the A matrix is stored transposed and
unscaled), and by associativity the stored pair `(Aᵀ, scale · Bᵀ)` has the
same two-matrix product as scaling the unscaled product `Aᵀ * Bᵀ` once. -/
theorem C6_scaling_merge (lora_alpha : ℤ) (rk hd od : ℕ) (rs : Bool)
    (lora_a : Matrix (Fin rk) (Fin hd) ℝ)
    (lora_b : Matrix (Fin od) (Fin rk) ℝ) :
    get_scaling_factor lora_alpha rk false = (lora_alpha : ℝ) / (rk : ℝ)
    ∧ get_scaling_factor lora_alpha rk true
        = (lora_alpha : ℝ) / Real.sqrt (rk : ℝ)
    ∧ mergedLoraA lora_a = lora_a.transpose
    ∧ mergedLoraA lora_a *
          mergedLoraB (get_scaling_factor lora_alpha rk rs) lora_b
        = get_scaling_factor lora_alpha rk rs •
          (lora_a.transpose * lora_b.transpose) := by
  refine ⟨rfl, rfl, rfl, ?_⟩
  unfold mergedLoraA mergedLoraB
  rw [Matrix.mul_smul]

/-- Claim C8: for every `LoraWeights` in the load-time orientation, reading
the transposed accessors and then the original accessors returns A and B
blocks element-for-element identical (same shape, same valuation) to the
load-time blocks, whatever the cutlass-shrink configuration; and on one
orientation flip the B block is always transposed while the A block is
transposed exactly in the cutlass-shrink configuration (and is the very
same tensor otherwise). -/
theorem C8_orientation_roundtrip {α : Type} (w : LoraWeights α)
    (h : w._is_transposed = false) :
    ((((w.weights_a_t).2.weights_b_t).2.weights_a).1.vals
        = w._weights_a.vals
      ∧ (((w.weights_a_t).2.weights_b_t).2.weights_a).1.nLayers
        = w._weights_a.nLayers
      ∧ (((w.weights_a_t).2.weights_b_t).2.weights_a).1.d1
        = w._weights_a.d1
      ∧ (((w.weights_a_t).2.weights_b_t).2.weights_a).1.d2
        = w._weights_a.d2)
    ∧ (((((w.weights_a_t).2.weights_b_t).2.weights_a).2.weights_b).1.vals
        = w._weights_b.vals
      ∧ ((((w.weights_a_t).2.weights_b_t).2.weights_a).2.weights_b).1.nLayers
        = w._weights_b.nLayers
      ∧ ((((w.weights_a_t).2.weights_b_t).2.weights_a).2.weights_b).1.d1
        = w._weights_b.d1
      ∧ ((((w.weights_a_t).2.weights_b_t).2.weights_a).2.weights_b).1.d2
        = w._weights_b.d2)
    ∧ (w._transpose_weights._weights_b.vals
        = fun l i j => w._weights_b.vals l j i)
    ∧ (w._use_cutlass_shrink = true →
        w._transpose_weights._weights_a.vals
          = fun l i j => w._weights_a.vals l j i)
    ∧ (w._use_cutlass_shrink = false →
        w._transpose_weights._weights_a = w._weights_a) := by
  cases hc : w._use_cutlass_shrink <;>
    simp [LoraWeights.weights_a_t, LoraWeights.weights_b_t,
      LoraWeights.weights_a, LoraWeights.weights_b,
      LoraWeights._transpose_weights, Tens.transpose12, h, hc]

/-- Witness for C8: the round trip and flip behaviour at the concrete
rank-8 adapter. -/
theorem C8_orientation_roundtrip_witness :
    exW8._is_transposed = false ∧
    (((((exW8.weights_a_t).2.weights_b_t).2.weights_a).1.vals
        = exW8._weights_a.vals
      ∧ (((exW8.weights_a_t).2.weights_b_t).2.weights_a).1.nLayers
        = exW8._weights_a.nLayers
      ∧ (((exW8.weights_a_t).2.weights_b_t).2.weights_a).1.d1
        = exW8._weights_a.d1
      ∧ (((exW8.weights_a_t).2.weights_b_t).2.weights_a).1.d2
        = exW8._weights_a.d2)
    ∧ (((((exW8.weights_a_t).2.weights_b_t).2.weights_a).2.weights_b).1.vals
        = exW8._weights_b.vals
      ∧ ((((exW8.weights_a_t).2.weights_b_t).2.weights_a).2.weights_b).1.nLayers
        = exW8._weights_b.nLayers
      ∧ ((((exW8.weights_a_t).2.weights_b_t).2.weights_a).2.weights_b).1.d1
        = exW8._weights_b.d1
      ∧ ((((exW8.weights_a_t).2.weights_b_t).2.weights_a).2.weights_b).1.d2
        = exW8._weights_b.d2)
    ∧ (exW8._transpose_weights._weights_b.vals
        = fun l i j => exW8._weights_b.vals l j i)
    ∧ (exW8._use_cutlass_shrink = true →
        exW8._transpose_weights._weights_a.vals
          = fun l i j => exW8._weights_a.vals l j i)
    ∧ (exW8._use_cutlass_shrink = false →
        exW8._transpose_weights._weights_a = exW8._weights_a)) :=
  ⟨rfl, C8_orientation_roundtrip exW8 rfl⟩

/-! Lemmas about the rank-group fold -/

theorem dappend_join_perm (m : List (ℕ × List ℕ)) (k v : ℕ) :
    ((dappend m k v).map Prod.snd).flatten.Perm
      ((m.map Prod.snd).flatten ++ [v]) := by
  induction m with
  | nil => simp [dappend]
  | cons kv rest ih =>
      obtain ⟨k', vs⟩ := kv
      by_cases hk : k' = k
      · subst hk
        simp only [dappend, eq_self_iff_true, if_true, List.map_cons,
          List.flatten_cons]
        rw [List.append_assoc, List.append_assoc]
        exact List.Perm.append_left vs List.perm_append_comm
      · simp only [dappend, if_neg hk, List.map_cons, List.flatten_cons]
        refine (List.Perm.append_left vs ih).trans ?_
        rw [List.append_assoc]

theorem rank_indices_loop_join_perm {α : Type}
    (aw : List (ℕ × LoraWeights α)) (l : List ℕ) : ∀ (pos : ℕ)
    (m : List (ℕ × List ℕ)),
    ((rank_indices_loop aw l pos m).map Prod.snd).flatten.Perm
      ((m.map Prod.snd).flatten ++ partPositions aw l pos) := by
  induction l with
  | nil => intro pos m; simp [rank_indices_loop, partPositions]
  | cons idx rest ih =>
      intro pos m
      cases halk : alookup aw idx with
      | none =>
          simp only [rank_indices_loop, halk, partPositions,
            Option.isSome_none, Bool.false_eq_true, if_false]
          exact ih (pos + 1) m
      | some w =>
          simp only [rank_indices_loop, halk, partPositions,
            Option.isSome_some, if_true]
          refine (ih (pos + 1) (dappend m w.lora_a_r pos)).trans ?_
          refine (List.Perm.append_right _ (dappend_join_perm m _ pos)).trans
            (List.Perm.of_eq ?_)
          rw [List.append_assoc]
          rfl

theorem mem_partPositions {α : Type} (aw : List (ℕ × LoraWeights α))
    (l : List ℕ) : ∀ (pos p : ℕ),
    p ∈ partPositions aw l pos ↔
      ∃ k, k < l.length ∧ p = pos + k ∧
        (alookup aw (l.getD k 0)).isSome = true := by
  induction l with
  | nil => intro pos p; simp [partPositions]
  | cons idx rest ih =>
      intro pos p
      cases halk : (alookup aw idx).isSome with
      | false =>
          simp only [partPositions, halk, Bool.false_eq_true, if_false]
          rw [ih (pos + 1) p]
          constructor
          · rintro ⟨k, hk, rfl, hP⟩
            exact ⟨k + 1, by simpa using hk, by omega, by simpa using hP⟩
          · rintro ⟨k, hk, rfl, hP⟩
            cases k with
            | zero => simp at hP; rw [hP] at halk; simp at halk
            | succ k =>
                exact ⟨k, by simpa using hk, by omega, by simpa using hP⟩
      | true =>
          simp only [partPositions, halk, if_true]
          rw [List.mem_cons, ih (pos + 1) p]
          constructor
          · rintro (rfl | ⟨k, hk, rfl, hP⟩)
            · exact ⟨0, by simp, by omega, by simpa using halk⟩
            · exact ⟨k + 1, by simpa using hk, by omega, by simpa using hP⟩
          · rintro ⟨k, hk, rfl, hP⟩
            cases k with
            | zero => left; omega
            | succ k =>
                right
                exact ⟨k, by simpa using hk, by omega, by simpa using hP⟩

theorem partPositions_lower {α : Type} (aw : List (ℕ × LoraWeights α))
    (l : List ℕ) : ∀ (pos p : ℕ), p ∈ partPositions aw l pos → pos ≤ p := by
  induction l with
  | nil => intro pos p hp; simp [partPositions] at hp
  | cons idx rest ih =>
      intro pos p hp
      cases halk : (alookup aw idx).isSome with
      | false =>
          rw [partPositions, halk] at hp
          simp only [Bool.false_eq_true, if_false] at hp
          exact le_trans (Nat.le_succ pos) (ih (pos + 1) p hp)
      | true =>
          rw [partPositions, halk] at hp
          simp only [if_true] at hp
          rcases List.mem_cons.mp hp with rfl | hp
          · exact le_refl _
          · exact le_trans (Nat.le_succ pos) (ih (pos + 1) p hp)

theorem nodup_partPositions {α : Type} (aw : List (ℕ × LoraWeights α))
    (l : List ℕ) : ∀ (pos : ℕ), (partPositions aw l pos).Nodup := by
  induction l with
  | nil => intro pos; simp [partPositions]
  | cons idx rest ih =>
      intro pos
      cases halk : (alookup aw idx).isSome with
      | false =>
          rw [partPositions, halk]
          simpa using ih (pos + 1)
      | true =>
          rw [partPositions, halk]
          simp only [if_true, List.nodup_cons]
          refine ⟨fun hmem => ?_, ih (pos + 1)⟩
          have := partPositions_lower aw rest (pos + 1) pos hmem
          omega

theorem map_fst_pairMap {β γ : Type} (m : List (ℕ × β))
    (f : ℕ × β → γ) :
    ((m.map (fun p => (p.1, f p))).map Prod.fst) = m.map Prod.fst := by
  induction m with
  | nil => rfl
  | cons kv rest ih => simp [ih]

/-! Claim C5 -/

/-- Claim C5: after every successful `BatchLoraWeights.load`, the rank
groups' segment-position lists are pairwise disjoint and duplicate-free and
their union is exactly the set of segment positions whose adapter has
weights for this layer (no omissions); non-participating segments appear in
no group; and the returned `rank_data` is keyed exactly by the groups'
ranks. -/
theorem C5_rank_grouping {α : Type}
    (adapter_weights : List (ℕ × AdapterWeightsT α))
    (meta : AdapterBatchMetadata) (layer_name : String) (prefill : Bool)
    (ph : Option (List ℕ))
    (h : (BatchLoraWeights.load adapter_weights meta layer_name prefill
      ph).isSome = true) :
    ((rankIndices (filteredAdapters adapter_weights)
        meta.segment_indices).map Prod.snd).flatten.Nodup
    ∧ (∀ p, p ∈ ((rankIndices (filteredAdapters adapter_weights)
          meta.segment_indices).map Prod.snd).flatten
        ↔ (p < meta.segment_indices.length
           ∧ (alookup (filteredAdapters adapter_weights)
               (meta.segment_indices.getD p 0)).isSome = true))
    ∧ (BatchLoraWeights.load adapter_weights meta layer_name prefill
        ph).map (fun b => b.rank_data.map Prod.fst)
      = some ((rankIndices (filteredAdapters adapter_weights)
          meta.segment_indices).map Prod.fst) := by
  have hperm : ((rankIndices (filteredAdapters adapter_weights)
      meta.segment_indices).map Prod.snd).flatten.Perm
      (partPositions (filteredAdapters adapter_weights)
        meta.segment_indices 0) := by
    have := rank_indices_loop_join_perm (filteredAdapters adapter_weights)
      meta.segment_indices 0 []
    simpa using this
  refine ⟨?_, ?_, ?_⟩
  · rw [hperm.nodup_iff]
    exact nodup_partPositions _ _ 0
  · intro p
    rw [hperm.mem_iff, mem_partPositions]
    constructor
    · rintro ⟨k, hk, rfl, hP⟩
      simp only [Nat.zero_add] at hP ⊢
      exact ⟨hk, hP⟩
    · rintro ⟨hp, hP⟩
      exact ⟨p, hp, by omega, hP⟩
  · cases hb : BatchLoraWeights.load adapter_weights meta layer_name
        prefill ph with
    | none => rw [hb] at h; simp at h
    | some b =>
        simp only [Option.map_some', Option.some.injEq]
        simp only [BatchLoraWeights.load] at hb
        split at hb
        · exact Option.noConfusion hb
        · split at hb
          · exact Option.noConfusion hb
          · cases hb
            exact map_fst_pairMap _ _

/-- Witness for C5: the grouping properties at the concrete batch with an
absent adapter. -/
theorem C5_rank_grouping_witness :
    (BatchLoraWeights.load exAdapters exMetaAbsent "q_proj" true
        none).isSome = true
    ∧ (((rankIndices (filteredAdapters exAdapters)
          exMetaAbsent.segment_indices).map Prod.snd).flatten.Nodup
      ∧ (∀ p, p ∈ ((rankIndices (filteredAdapters exAdapters)
            exMetaAbsent.segment_indices).map Prod.snd).flatten
          ↔ (p < exMetaAbsent.segment_indices.length
             ∧ (alookup (filteredAdapters exAdapters)
                 (exMetaAbsent.segment_indices.getD p 0)).isSome = true))
      ∧ (BatchLoraWeights.load exAdapters exMetaAbsent "q_proj" true
          none).map (fun b => b.rank_data.map Prod.fst)
        = some ((rankIndices (filteredAdapters exAdapters)
            exMetaAbsent.segment_indices).map Prod.fst)) :=
  ⟨by decide, C5_rank_grouping exAdapters exMetaAbsent "q_proj" true none
    (by decide)⟩

/-! Lookup characterisations of the rank-group fold and the first-location
dict -/

theorem alookup_dappend_eq (m : List (ℕ × List ℕ)) (k v : ℕ) :
    alookup (dappend m k v) k = some ((alookup m k).getD [] ++ [v]) := by
  induction m with
  | nil => simp [dappend, alookup_cons, alookup]
  | cons kv rest ih =>
      obtain ⟨k', vs⟩ := kv
      by_cases hk : k' = k
      · subst hk
        simp [dappend, alookup_cons]
      · simp [dappend, hk, alookup_cons, ih]

theorem alookup_dappend_ne (m : List (ℕ × List ℕ)) (k' v k : ℕ)
    (h : k' ≠ k) : alookup (dappend m k' v) k = alookup m k := by
  induction m with
  | nil => simp [dappend, alookup_cons, alookup, h]
  | cons kv rest ih =>
      obtain ⟨k'', vs⟩ := kv
      by_cases hk : k'' = k'
      · subst hk
        simp [dappend, alookup_cons, h]
      · by_cases hk2 : k'' = k
        · subst hk2
          simp [dappend, hk, alookup_cons, Ne.symm h]
        · simp [dappend, hk, hk2, alookup_cons, ih]

theorem rank_indices_loop_alookup_some {α : Type}
    (aw : List (ℕ × LoraWeights α)) (l : List ℕ) : ∀ (pos : ℕ)
    (m : List (ℕ × List ℕ)) (k : ℕ) (vs : List ℕ),
    alookup m k = some vs →
    alookup (rank_indices_loop aw l pos m) k
      = some (vs ++ rankPositions aw k l pos) := by
  induction l with
  | nil => intro pos m k vs hm; simpa [rank_indices_loop, rankPositions]
      using hm
  | cons idx rest ih =>
      intro pos m k vs hm
      cases halk : alookup aw idx with
      | none =>
          simp only [rank_indices_loop, halk, rankPositions]
          exact ih (pos + 1) m k vs hm
      | some w =>
          simp only [rank_indices_loop, halk, rankPositions]
          by_cases hw : w.lora_a_r = k
          · rw [if_pos hw]
            have hd : alookup (dappend m w.lora_a_r pos) k
                = some (vs ++ [pos]) := by
              rw [hw, alookup_dappend_eq, hm]
              rfl
            rw [ih (pos + 1) _ k (vs ++ [pos]) hd, List.append_assoc]
            rfl
          · rw [if_neg hw]
            exact ih (pos + 1) _ k vs
              ((alookup_dappend_ne m w.lora_a_r pos k hw).trans hm)

theorem rank_indices_loop_alookup_none {α : Type}
    (aw : List (ℕ × LoraWeights α)) (l : List ℕ) : ∀ (pos : ℕ)
    (m : List (ℕ × List ℕ)) (k : ℕ),
    alookup m k = none →
    alookup (rank_indices_loop aw l pos m) k
      = if rankPositions aw k l pos = [] then none
        else some (rankPositions aw k l pos) := by
  induction l with
  | nil => intro pos m k hm; simpa [rank_indices_loop, rankPositions]
      using hm
  | cons idx rest ih =>
      intro pos m k hm
      cases halk : alookup aw idx with
      | none =>
          simp only [rank_indices_loop, halk, rankPositions]
          exact ih (pos + 1) m k hm
      | some w =>
          simp only [rank_indices_loop, halk, rankPositions]
          by_cases hw : w.lora_a_r = k
          · rw [if_pos hw]
            have hd : alookup (dappend m w.lora_a_r pos) k
                = some ([] ++ [pos]) := by
              rw [hw, alookup_dappend_eq, hm]
              rfl
            rw [rank_indices_loop_alookup_some aw rest (pos + 1) _ k _ hd]
            simp
          · rw [if_neg hw]
            exact ih (pos + 1) _ k
              ((alookup_dappend_ne m w.lora_a_r pos k hw).trans hm)

theorem alookup_rankIndices {α : Type} (aw : List (ℕ × LoraWeights α))
    (segs : List ℕ) (k : ℕ) :
    alookup (rankIndices aw segs) k
      = if rankPositions aw k segs 0 = [] then none
        else some (rankPositions aw k segs 0) :=
  rank_indices_loop_alookup_none aw segs 0 [] k rfl

theorem mem_rankPositions {α : Type} (aw : List (ℕ × LoraWeights α))
    (k : ℕ) (l : List ℕ) : ∀ (pos p : ℕ),
    p ∈ rankPositions aw k l pos ↔
      ∃ j, j < l.length ∧ p = pos + j ∧
        ∃ w, alookup aw (l.getD j 0) = some w ∧ w.lora_a_r = k := by
  induction l with
  | nil => intro pos p; simp [rankPositions]
  | cons idx rest ih =>
      intro pos p
      cases halk : alookup aw idx with
      | none =>
          simp only [rankPositions, halk]
          rw [ih (pos + 1) p]
          constructor
          · rintro ⟨j, hj, rfl, hw⟩
            exact ⟨j + 1, by simpa using hj, by omega, by simpa using hw⟩
          · rintro ⟨j, hj, rfl, w, hw, hr⟩
            cases j with
            | zero => simp only [List.getD_cons_zero] at hw
                      rw [hw] at halk; exact Option.noConfusion halk
            | succ j =>
                exact ⟨j, by simpa using hj, by omega,
                  ⟨w, by simpa using hw, hr⟩⟩
      | some w =>
          simp only [rankPositions, halk]
          by_cases hwr : w.lora_a_r = k
          · rw [if_pos hwr, List.mem_cons, ih (pos + 1) p]
            constructor
            · rintro (rfl | ⟨j, hj, rfl, hw⟩)
              · exact ⟨0, by simp, by omega,
                  ⟨w, by simpa using halk, hwr⟩⟩
              · exact ⟨j + 1, by simpa using hj, by omega,
                  by simpa using hw⟩
            · rintro ⟨j, hj, rfl, w', hw', hr⟩
              cases j with
              | zero => left; omega
              | succ j =>
                  right
                  exact ⟨j, by simpa using hj, by omega,
                    ⟨w', by simpa using hw', hr⟩⟩
          · rw [if_neg hwr]
            rw [ih (pos + 1) p]
            constructor
            · rintro ⟨j, hj, rfl, hw⟩
              exact ⟨j + 1, by simpa using hj, by omega, by simpa using hw⟩
            · rintro ⟨j, hj, rfl, w', hw', hr⟩
              cases j with
              | zero =>
                  simp only [List.getD_cons_zero] at hw'
                  rw [hw'] at halk
                  cases halk
                  exact absurd hr hwr
              | succ j =>
                  exact ⟨j, by simpa using hj, by omega,
                    ⟨w', by simpa using hw', hr⟩⟩

theorem idx_locs_loop_alookup_some (segs : List ℕ) (l : List ℕ) :
    ∀ (loc : ℕ) (m : List (ℕ × ℕ)) (a v : ℕ), alookup m a = some v →
    alookup (idx_locs_loop segs l loc m) a = some v := by
  induction l with
  | nil => intro loc m a v hm; simpa [idx_locs_loop] using hm
  | cons i rest ih =>
      intro loc m a v hm
      simp only [idx_locs_loop]
      by_cases hs : (alookup m (segs.getD i 0)).isSome
      · rw [if_pos hs]
        exact ih (loc + 1) m a v hm
      · rw [if_neg hs]
        refine ih (loc + 1) _ a v ?_
        rw [alookup_append, hm]
        rfl

theorem idx_locs_loop_alookup_none (segs : List ℕ) (l : List ℕ) :
    ∀ (loc : ℕ) (m : List (ℕ × ℕ)) (a : ℕ), alookup m a = none →
    alookup (idx_locs_loop segs l loc m) a = firstIdxFrom segs a l loc := by
  induction l with
  | nil => intro loc m a hm; simpa [idx_locs_loop, firstIdxFrom] using hm
  | cons i rest ih =>
      intro loc m a hm
      simp only [idx_locs_loop, firstIdxFrom]
      by_cases hsa : segs.getD i 0 = a
      · rw [if_pos hsa, hsa]
        have hs : ¬(alookup m a).isSome := by rw [hm]; simp
        rw [if_neg hs]
        refine idx_locs_loop_alookup_some segs rest (loc + 1) _ a loc ?_
        rw [alookup_append, hm]
        simp only [Option.map_none', Option.getD_none, alookup_cons]
        simp
      · rw [if_neg hsa]
        by_cases hs : (alookup m (segs.getD i 0)).isSome
        · rw [if_pos hs]
          exact ih (loc + 1) m a hm
        · rw [if_neg hs]
          refine ih (loc + 1) _ a ?_
          rw [alookup_append, hm]
          simp only [Option.map_none', Option.getD_none, alookup_cons]
          rw [if_neg hsa]
          rfl

theorem firstIdxFrom_shift (segs : List ℕ) (a : ℕ) (l : List ℕ) :
    ∀ (s : ℕ), firstIdxFrom segs a l s
      = (firstIdxFrom segs a l 0).map (fun x => x + s) := by
  induction l with
  | nil => intro s; simp [firstIdxFrom]
  | cons i rest ih =>
      intro s
      simp only [firstIdxFrom]
      by_cases hsa : segs.getD i 0 = a
      · rw [if_pos hsa, if_pos hsa]
        simp
      · rw [if_neg hsa, if_neg hsa]
        rw [ih (s + 1), ih 1, Option.map_map]
        cases firstIdxFrom segs a rest 0 <;> simp
        omega

theorem firstIdxFrom_spec (segs : List ℕ) (a : ℕ) (l : List ℕ) :
    ∀ (loc : ℕ), firstIdxFrom segs a l 0 = some loc →
      loc < l.length ∧ segs.getD (l.getD loc 0) 0 = a ∧
        ∀ u, u < loc → segs.getD (l.getD u 0) 0 ≠ a := by
  induction l with
  | nil => intro loc h; exact Option.noConfusion h
  | cons i rest ih =>
      intro loc h
      simp only [firstIdxFrom] at h
      by_cases hsa : segs.getD i 0 = a
      · rw [if_pos hsa] at h
        cases h
        exact ⟨by simp, by simpa using hsa, fun u hu => absurd hu (by omega)⟩
      · rw [if_neg hsa, firstIdxFrom_shift segs a rest 1] at h
        cases h0 : firstIdxFrom segs a rest 0 with
        | none => rw [h0] at h; exact Option.noConfusion h
        | some loc0 =>
            rw [h0] at h
            simp only [Option.map_some', Option.some.injEq] at h
            obtain ⟨h1, h2, h3⟩ := ih loc0 h0
            subst h
            refine ⟨by simpa using h1, by simpa using h2, fun u hu => ?_⟩
            cases u with
            | zero => simpa using hsa
            | succ u =>
                have : u < loc0 := by omega
                simpa using h3 u this

theorem firstIdxFrom_isSome (segs : List ℕ) (a : ℕ) (l : List ℕ)
    (h : ∃ i ∈ l, segs.getD i 0 = a) :
    (firstIdxFrom segs a l 0).isSome = true := by
  induction l with
  | nil => simp at h
  | cons i rest ih =>
      simp only [firstIdxFrom]
      by_cases hsa : segs.getD i 0 = a
      · rw [if_pos hsa]
        rfl
      · rw [if_neg hsa, firstIdxFrom_shift segs a rest 1]
        obtain ⟨i', hi', hP⟩ := h
        rcases List.mem_cons.mp hi' with rfl | hi'
        · exact absurd hP hsa
        · have hsome := ih ⟨i', hi', hP⟩
          cases h0 : firstIdxFrom segs a rest 0 with
          | none => rw [h0] at hsome; simp at hsome
          | some loc0 => rfl

theorem alookup_pairMap {β γ : Type} (m : List (ℕ × β))
    (f : ℕ × β → γ) (k : ℕ) :
    alookup (m.map (fun p => (p.1, f p))) k
      = (alookup m k).map (fun v => f (k, v)) := by
  induction m with
  | nil => rfl
  | cons kv rest ih =>
      obtain ⟨k', v⟩ := kv
      by_cases hk : k' = k
      · subst hk
        simp [alookup_cons]
      · simp [alookup_cons, hk, ih]

theorem alookup_buildRankData {α : Type} (aw : List (ℕ × LoraWeights α))
    (meta : AdapterBatchMetadata) (usg : Bool) (pa pb : List ℕ)
    (ph : Option (List ℕ × List ℕ)) (r : ℕ) :
    alookup (buildRankData aw meta usg pa pb ph) r
      = (alookup (rankIndices aw meta.segment_indices) r).map
          (fun inds => buildRankSegment aw meta usg pa pb ph r inds) := by
  unfold buildRankData
  exact alookup_pairMap (rankIndices aw meta.segment_indices)
    (fun p => buildRankSegment aw meta usg pa pb ph p.1 p.2) r

/-! Claim C4 -/

/-- Claim C4: on the decode path (`prefill = false`, maximum rank within
the per-token kernel's capacity), for every token position `t`: the index
array of the rank-`r` group maps `t` to the first-occurrence position of
`t`'s adapter within that group's position list (which indexes the group's
pointer slice) whenever `t`'s adapter participates with rank `r` and occurs
among the batch segments, and maps `t` to the sentinel `-1` whenever `t`'s
adapter has no weights for this layer or has a rank different from `r`;
the group's A-pointer slice is the pointer table sliced by exactly that
position list. -/
theorem C4_decode_indices {α : Type}
    (adapter_weights : List (ℕ × AdapterWeightsT α))
    (meta : AdapterBatchMetadata) (layer_name : String)
    (ph : Option (List ℕ)) (r : ℕ) (rs : RankSegments) (t : ℕ)
    (h : (BatchLoraWeights.load adapter_weights meta layer_name false
      ph).isSome = true)
    (hmax : maxRankOf adapter_weights meta ≤ BGMV_MAX_RANK)
    (hrs : (BatchLoraWeights.load adapter_weights meta layer_name false
        ph).map (fun b => alookup b.rank_data r) = some (some rs))
    (ht : t < meta.adapter_indices.length) :
    ∃ bi : List ℤ, rs.indices = some bi
    ∧ (∀ w, alookup (filteredAdapters adapter_weights)
          (meta.adapter_indices.getD t 0) = some w →
        w.lora_a_r = r →
        (meta.adapter_indices.getD t 0) ∈ meta.segment_indices →
        ∃ loc : ℕ, bi.getD t 0 = (loc : ℤ)
          ∧ loc < (rankPositions (filteredAdapters adapter_weights) r
              meta.segment_indices 0).length
          ∧ meta.segment_indices.getD
              ((rankPositions (filteredAdapters adapter_weights) r
                meta.segment_indices 0).getD loc 0) 0
            = meta.adapter_indices.getD t 0
          ∧ ∀ u, u < loc → meta.segment_indices.getD
              ((rankPositions (filteredAdapters adapter_weights) r
                meta.segment_indices 0).getD u 0) 0
            ≠ meta.adapter_indices.getD t 0)
    ∧ ((alookup (filteredAdapters adapter_weights)
          (meta.adapter_indices.getD t 0) = none
        ∨ ∀ w, alookup (filteredAdapters adapter_weights)
            (meta.adapter_indices.getD t 0) = some w → w.lora_a_r ≠ r) →
        bi.getD t 0 = -1)
    ∧ rs.lora_a_ptr = (rankPositions (filteredAdapters adapter_weights) r
        meta.segment_indices 0).map (fun i =>
          (loraAPtrTable (normalizeAll (filteredAdapters adapter_weights))
            meta.segment_indices false).getD i 0) := by
  cases hb : BatchLoraWeights.load adapter_weights meta layer_name false
      ph with
  | none => rw [hb] at h; simp at h
  | some b =>
      rw [hb] at hrs
      simp only [Option.map_some', Option.some.injEq] at hrs
      simp only [BatchLoraWeights.load] at hb
      split at hb
      · exact Option.noConfusion hb
      · split at hb
        · exact Option.noConfusion hb
        · cases hb
          have husg : (false || decide (BGMV_MAX_RANK <
              (segmentRanks (filteredAdapters adapter_weights)
                meta.segment_indices).foldl Nat.max 0)) = false := by
            simp only [Bool.false_or, decide_eq_false_iff_not]
            exact not_lt.mpr hmax
          rw [husg] at hrs
          rw [alookup_buildRankData] at hrs
          cases hri : alookup (rankIndices (filteredAdapters
              adapter_weights) meta.segment_indices) r with
          | none => rw [hri] at hrs; exact Option.noConfusion hrs
          | some inds =>
              rw [hri] at hrs
              simp only [Option.map_some', Option.some.injEq] at hrs
              rw [alookup_rankIndices] at hri
              by_cases hrp : rankPositions (filteredAdapters
                  adapter_weights) r meta.segment_indices 0 = []
              · rw [if_pos hrp] at hri
                exact Option.noConfusion hri
              · rw [if_neg hrp] at hri
                have hinds : inds = rankPositions (filteredAdapters
                    adapter_weights) r meta.segment_indices 0 :=
                  ((Option.some.injEq _ _).mp hri).symm
                subst hinds
                subst hrs
                simp only [buildRankSegment, Bool.false_eq_true, if_false]
                have hentry : (batchIndices (filteredAdapters
                    adapter_weights) meta.segment_indices r
                    (rankPositions (filteredAdapters adapter_weights) r
                      meta.segment_indices 0)
                    meta.adapter_indices).getD t 0
                    = (match alookup (filteredAdapters adapter_weights)
                          (meta.adapter_indices.getD t 0) with
                      | some w' =>
                          if w'.lora_a_r = r then
                            ((alookup (idx_locs_loop meta.segment_indices
                                (rankPositions (filteredAdapters
                                  adapter_weights) r
                                  meta.segment_indices 0) 0 [])
                                (meta.adapter_indices.getD t 0)).map
                              Int.ofNat).getD (-1)
                          else (-1 : ℤ)
                      | none => (-1 : ℤ)) :=
                  getD_map_of_lt _ meta.adapter_indices t 0 0 ht
                refine ⟨_, rfl, ?_, ?_, trivial⟩
                · intro w hw hwr hmem
                  obtain ⟨n, hn, hgn⟩ := List.mem_iff_getElem.mp hmem
                  have hgn' : meta.segment_indices.getD n 0
                      = meta.adapter_indices.getD t 0 := by
                    rw [List.getD_eq_getElem?_getD,
                      List.getElem?_eq_getElem hn]
                    exact hgn
                  have hmemrp : n ∈ rankPositions (filteredAdapters
                      adapter_weights) r meta.segment_indices 0 :=
                    (mem_rankPositions _ r _ 0 n).mpr
                      ⟨n, hn, by omega, w, by rw [hgn']; exact hw, hwr⟩
                  have hfi : (firstIdxFrom meta.segment_indices
                      (meta.adapter_indices.getD t 0)
                      (rankPositions (filteredAdapters adapter_weights) r
                        meta.segment_indices 0) 0).isSome = true :=
                    firstIdxFrom_isSome _ _ _ ⟨n, hmemrp, hgn'⟩
                  obtain ⟨loc, hloc⟩ := Option.isSome_iff_exists.mp hfi
                  obtain ⟨hl1, hl2, hl3⟩ := firstIdxFrom_spec _ _ _ loc hloc
                  refine ⟨loc, ?_, hl1, hl2, hl3⟩
                  rw [hentry]
                  simp only [hw, hwr, eq_self_iff_true, if_true]
                  rw [idx_locs_loop_alookup_none _ _ 0 [] _ rfl, hloc]
                  rfl
                · intro hneg
                  rw [hentry]
                  cases halk : alookup (filteredAdapters adapter_weights)
                      (meta.adapter_indices.getD t 0) with
                  | none => rfl
                  | some w =>
                      rcases hneg with hnone | hne
                      · rw [halk] at hnone
                        exact Option.noConfusion hnone
                      · simp only [if_neg (hne w halk)]

/-- Witness for C4: the decode-path index properties at the concrete batch,
rank group 8, token 0. -/
theorem C4_decode_indices_witness :
    (BatchLoraWeights.load exAdapters exMeta "q_proj" false none).isSome
        = true
    ∧ maxRankOf exAdapters exMeta ≤ BGMV_MAX_RANK
    ∧ (BatchLoraWeights.load exAdapters exMeta "q_proj" false none).map
        (fun b => alookup b.rank_data 8) = some (some exRS8)
    ∧ 0 < exMeta.adapter_indices.length
    ∧ (∃ bi : List ℤ, exRS8.indices = some bi
      ∧ (∀ w, alookup (filteredAdapters exAdapters)
            (exMeta.adapter_indices.getD 0 0) = some w →
          w.lora_a_r = 8 →
          (exMeta.adapter_indices.getD 0 0) ∈ exMeta.segment_indices →
          ∃ loc : ℕ, bi.getD 0 0 = (loc : ℤ)
            ∧ loc < (rankPositions (filteredAdapters exAdapters) 8
                exMeta.segment_indices 0).length
            ∧ exMeta.segment_indices.getD
                ((rankPositions (filteredAdapters exAdapters) 8
                  exMeta.segment_indices 0).getD loc 0) 0
              = exMeta.adapter_indices.getD 0 0
            ∧ ∀ u, u < loc → exMeta.segment_indices.getD
                ((rankPositions (filteredAdapters exAdapters) 8
                  exMeta.segment_indices 0).getD u 0) 0
              ≠ exMeta.adapter_indices.getD 0 0)
      ∧ ((alookup (filteredAdapters exAdapters)
            (exMeta.adapter_indices.getD 0 0) = none
          ∨ ∀ w, alookup (filteredAdapters exAdapters)
              (exMeta.adapter_indices.getD 0 0) = some w →
            w.lora_a_r ≠ 8) →
          bi.getD 0 0 = -1)
      ∧ exRS8.lora_a_ptr = (rankPositions (filteredAdapters exAdapters) 8
          exMeta.segment_indices 0).map (fun i =>
            (loraAPtrTable (normalizeAll (filteredAdapters exAdapters))
              exMeta.segment_indices false).getD i 0)) :=
  ⟨by decide, by decide, by decide, by decide,
    C4_decode_indices exAdapters exMeta "q_proj" none 8 exRS8 0
      (by decide) (by decide) (by decide) (by decide)⟩

/-! Claim C2 -/

/-- Claim C2 counterexample: with the pad-to-multiple-of-8 policy instance,
an adapter loaded from pre-padding rank 4 (original `config.r = 4`,
`A.size(1) = 4`) participates in the one-segment batch `[adapter 0]`, yet
the rank→segment-positions partition built by `BatchLoraWeights.load` has
no group keyed by the pre-padding rank 4: the only group is keyed by the
padded rank 8 (= `lora_a_r`).  The partition is therefore not computed from
pre-padding ranks, refuting the claim as stated. -/
theorem C2_counterexample :
    cexConfig4.r = 4 ∧ cexA4.d2 = 4
    ∧ (alookup cexAw ([0].getD 0 0)).isSome = true
    ∧ alookup (rankIndices cexAw [0]) 4 = none
    ∧ alookup (rankIndices cexAw [0]) 8 = some [0]
    ∧ cexW4.lora_a_r = 8 := by decide

/-- Claim C2 (amended): the partition of segment positions into rank groups
is computed from each participating adapter's *post-padding* rank — the
stored A block's rank dimension `lora_a_r`, which for an adapter built by
`LoraWeights.load` equals the padded rank and the updated `config.r` —
skipping segments whose adapter has no weights for this layer. -/
theorem C2_rank_grouping_padded {α : Type} [Zero α]
    (ucs : ℕ → Bool) (orient : Tens α → ℕ → Tens α) (padRank : ℕ → ℕ)
    (wa wb : Tens α) (cfg : LoraConfig) (fa fb : ℕ)
    (h1 : 0 < wa.nLayers) :
    (LoraWeights.load ucs orient padRank wa wb cfg fa fb).lora_a_r
        = padRank wa.d2
    ∧ (LoraWeights.load ucs orient padRank wa wb cfg fa
        fb).adapter_config.r = padRank wa.d2
    ∧ ∀ (aw : List (ℕ × LoraWeights α)) (segs : List ℕ) (p : ℕ),
        p < segs.length →
        (∀ v, alookup aw (segs.getD p 0) = some v →
          p ∈ (alookup (rankIndices aw segs) v.lora_a_r).getD [])
        ∧ (alookup aw (segs.getD p 0) = none →
          ∀ k inds, alookup (rankIndices aw segs) k = some inds →
            p ∉ inds) := by
  refine ⟨?_, ?_, ?_⟩
  · simp [LoraWeights.load, mkLoraWeights, padTensDim2, h1]
  · simp [LoraWeights.load, mkLoraWeights, padTensDim2, h1]
  · intro aw segs p hp
    constructor
    · intro v hv
      have hmem : p ∈ rankPositions aw v.lora_a_r segs 0 :=
        (mem_rankPositions aw v.lora_a_r segs 0 p).mpr
          ⟨p, hp, by omega, v, hv, rfl⟩
      rw [alookup_rankIndices]
      rw [if_neg (by intro hnil; rw [hnil] at hmem; simp at hmem)]
      simpa using hmem
    · intro hnone k inds hinds
      rw [alookup_rankIndices] at hinds
      by_cases hrp : rankPositions aw k segs 0 = []
      · rw [if_pos hrp] at hinds
        exact Option.noConfusion hinds
      · rw [if_neg hrp] at hinds
        cases hinds
        intro hmem
        obtain ⟨j, hj, hpj, v, hv, _⟩ :=
          (mem_rankPositions aw k segs 0 p).mp hmem
        have hjp : j = p := by omega
        subst hjp
        rw [hnone] at hv
        exact Option.noConfusion hv

/-- Witness for the amended C2 at the concrete rank-4 adapter and
pad-to-multiple-of-8 policy. -/
theorem C2_rank_grouping_padded_witness :
    0 < cexA4.nLayers
    ∧ ((LoraWeights.load (fun _ => true) (fun t _ => t) cexPadRank cexA4
          cexB4 cexConfig4 901 902).lora_a_r = cexPadRank cexA4.d2
      ∧ (LoraWeights.load (fun _ => true) (fun t _ => t) cexPadRank cexA4
          cexB4 cexConfig4 901 902).adapter_config.r = cexPadRank cexA4.d2
      ∧ ∀ (aw : List (ℕ × LoraWeights ℕ)) (segs : List ℕ) (p : ℕ),
          p < segs.length →
          (∀ v, alookup aw (segs.getD p 0) = some v →
            p ∈ (alookup (rankIndices aw segs) v.lora_a_r).getD [])
          ∧ (alookup aw (segs.getD p 0) = none →
            ∀ k inds, alookup (rankIndices aw segs) k = some inds →
              p ∉ inds)) :=
  ⟨by decide, C2_rank_grouping_padded (fun _ => true) (fun t _ => t)
    cexPadRank cexA4 cexB4 cexConfig4 901 902 (by decide)⟩

/-! Characterisation of the position-filtered boundary loop (claim C9) -/

theorem map_range_succ_cons (f : ℕ → ℕ) (n : ℕ) :
    (List.range (n + 1)).map f
      = f 0 :: (List.range n).map (fun t => f (t + 1)) := by
  rw [List.range_succ_eq_map, List.map_cons, List.map_map]
  rfl

theorem prefillHeadLoop_char (segs : List ℕ) (S : ℕ)
    (hsegs : ∀ a b, a ≤ b → b ≤ S → segs.getD a 0 ≤ segs.getD b 0) :
    ∀ (hs : List ℕ) (j e : ℕ) (srev etail : List ℕ),
    List.Sorted (· ≤ ·) hs →
    (∀ x ∈ hs, x < segs.getD S 0) →
    (∀ i, j ≤ i → i < S → ∃ x ∈ hs,
      segs.getD i 0 ≤ x ∧ x < segs.getD (i + 1) 0) →
    1 ≤ j → j ≤ S →
    prefillHeadLoop segs hs j srev (e :: etail)
      = (srev.reverse ++ (List.range (S - j)).map
          (fun t => e + hs.countP
            (fun z => decide (z < segs.getD (j + t) 0))),
         etail.reverse ++ (List.range (S - j + 1)).map
          (fun t => e + hs.countP
            (fun z => decide (z < segs.getD (j + t) 0)))) := by
  intro hs
  induction hs with
  | nil =>
      intro j e srev etail hsort hub hcov h1 hjS
      have hjeq : j = S := by
        by_contra hne
        have hj : j < S := lt_of_le_of_ne hjS hne
        obtain ⟨x, hx, _⟩ := hcov j le_rfl hj
        simp at hx
      subst hjeq
      simp [prefillHeadLoop, Nat.sub_self]
  | cons x rest ih =>
      intro j e srev etail hsort hub hcov h1 hjS
      have hsort' : List.Sorted (· ≤ ·) rest := hsort.of_cons
      have hxmin : ∀ y ∈ rest, x ≤ y := (List.sorted_cons.mp hsort).1
      have hub' : ∀ y ∈ rest, y < segs.getD S 0 :=
        fun y hy => hub y (List.mem_cons_of_mem _ hy)
      by_cases hx : x < segs.getD j 0
      · have hcov' : ∀ i, j ≤ i → i < S → ∃ y ∈ rest,
            segs.getD i 0 ≤ y ∧ y < segs.getD (i + 1) 0 := by
          intro i hji hiS
          obtain ⟨y, hy, h1y, h2y⟩ := hcov i hji hiS
          rcases List.mem_cons.mp hy with heq | hy'
          · subst heq
            have := hsegs j i hji (le_of_lt hiS)
            omega
          · exact ⟨y, hy', h1y, h2y⟩
        simp only [prefillHeadLoop]
        rw [if_pos hx]
        have hloop := ih j (e + 1) srev etail hsort' hub' hcov' h1 hjS
        simp only [List.headD_cons, List.tail_cons] at hloop ⊢
        rw [hloop]
        have hcnt : ∀ i, j ≤ i → i ≤ S →
            (x :: rest).countP (fun z => decide (z < segs.getD i 0))
              = rest.countP (fun z => decide (z < segs.getD i 0)) + 1 := by
          intro i hji hiS
          have hji2 := hsegs j i hji hiS
          have hxi : x < segs.getD i 0 := by omega
          rw [List.countP_cons, decide_eq_true hxi, if_pos rfl]
        refine Prod.ext ?_ ?_
        · refine congrArg (fun z => srev.reverse ++ z) ?_
          refine List.map_congr_left (fun t ht => ?_)
          have htS : j + t ≤ S := by
            have := List.mem_range.mp ht
            omega
          rw [hcnt (j + t) (by omega) htS]
          omega
        · refine congrArg (fun z => etail.reverse ++ z) ?_
          refine List.map_congr_left (fun t ht => ?_)
          have htS : j + t ≤ S := by
            have := List.mem_range.mp ht
            omega
          rw [hcnt (j + t) (by omega) htS]
          omega
      · have hxj : segs.getD j 0 ≤ x := not_lt.mp hx
        have hjS' : j < S := by
          rcases eq_or_lt_of_le hjS with rfl | h
          · exact absurd (hub x (List.mem_cons_self x rest)) (by omega)
          · exact h
        obtain ⟨y, hy, h1y, h2y⟩ := hcov j le_rfl hjS'
        have hxy : x ≤ y := by
          rcases List.mem_cons.mp hy with heq | hy'
          · exact heq.ge
          · exact hxmin y hy'
        have hxlt : x < segs.getD (j + 1) 0 := lt_of_le_of_lt hxy h2y
        have hcov' : ∀ i, j + 1 ≤ i → i < S → ∃ z ∈ rest,
            segs.getD i 0 ≤ z ∧ z < segs.getD (i + 1) 0 := by
          intro i hji hiS
          obtain ⟨z, hz, h1z, h2z⟩ := hcov i (by omega) hiS
          rcases List.mem_cons.mp hz with heq | hz'
          · subst heq
            have := hsegs (j + 1) i hji (le_of_lt hiS)
            omega
          · exact ⟨z, hz', h1z, h2z⟩
        simp only [prefillHeadLoop]
        rw [if_neg hx]
        have hloop := ih (j + 1) (e + 1) (e :: srev) (e :: etail) hsort'
          hub' hcov' (by omega) hjS'
        simp only [List.headD_cons, List.tail_cons] at hloop ⊢
        rw [hloop]
        have hcnt0 : (x :: rest).countP
            (fun z => decide (z < segs.getD j 0)) = 0 := by
          rw [List.countP_eq_zero]
          intro z hz
          rcases List.mem_cons.mp hz with heq | hz'
          · subst heq
            simpa using hx
          · have := hxmin z hz'
            simp only [decide_eq_true_eq]
            omega
        have hcnt : ∀ i, j + 1 ≤ i → i ≤ S →
            (x :: rest).countP (fun z => decide (z < segs.getD i 0))
              = rest.countP (fun z => decide (z < segs.getD i 0)) + 1 := by
          intro i hji hiS
          have hji2 := hsegs (j + 1) i hji hiS
          have hxi : x < segs.getD i 0 := by omega
          rw [List.countP_cons, decide_eq_true hxi, if_pos rfl]
        have hSj : S - j = S - (j + 1) + 1 := by omega
        have hSj' : S - j + 1 = S - (j + 1) + 1 + 1 := by omega
        refine Prod.ext ?_ ?_
        · show (e :: srev).reverse ++ _ = srev.reverse ++ _
          conv_rhs => rw [hSj, map_range_succ_cons]
          rw [List.reverse_cons, List.append_assoc]
          refine congrArg (fun z => srev.reverse ++ z) ?_
          show _ :: _ = _ :: _
          refine congrArg₂ (fun (a : ℕ) (z : List ℕ) => a :: z) ?_ ?_
          · rw [Nat.add_zero, hcnt0]
            omega
          · refine (List.map_congr_left (fun t ht => ?_)).symm
            have htS : j + 1 + t ≤ S := by
              have := List.mem_range.mp ht
              omega
            rw [show j + (t + 1) = j + 1 + t by omega,
              hcnt (j + 1 + t) (by omega) htS]
            omega
        · show (e :: etail).reverse ++ _ = etail.reverse ++ _
          conv_rhs => rw [hSj', map_range_succ_cons]
          rw [List.reverse_cons, List.append_assoc]
          refine congrArg (fun z => etail.reverse ++ z) ?_
          show _ :: _ = _ :: _
          refine congrArg₂ (fun (a : ℕ) (z : List ℕ) => a :: z) ?_ ?_
          · rw [Nat.add_zero, hcnt0]
            omega
          · refine (List.map_congr_left (fun t ht => ?_)).symm
            have htS : j + 1 + t ≤ S := by
              have := List.mem_range.mp ht
              omega
            rw [show j + (t + 1) = j + 1 + t by omega,
              hcnt (j + 1 + t) (by omega) htS]
            omega

theorem sorted_getD_mono (l : List ℕ) (hl : List.Sorted (· ≤ ·) l)
    (a b : ℕ) (hab : a ≤ b) (hb : b < l.length) :
    l.getD a 0 ≤ l.getD b 0 := by
  have ha : a < l.length := lt_of_le_of_lt hab hb
  have hga : l.getD a 0 = l.get ⟨a, ha⟩ := by
    rw [List.getD_eq_getElem?_getD, List.getElem?_eq_getElem ha]
    rfl
  have hgb : l.getD b 0 = l.get ⟨b, hb⟩ := by
    rw [List.getD_eq_getElem?_getD, List.getElem?_eq_getElem hb]
    rfl
  rw [hga, hgb]
  rcases eq_or_lt_of_le hab with rfl | hlt
  · exact le_refl _
  · exact List.pairwise_iff_get.mp hl ⟨a, ha⟩ ⟨b, hb⟩ hlt

theorem range_getD (n i : ℕ) (hi : i < n) :
    (List.range n).getD i 0 = i := by
  rw [List.getD_eq_getElem?_getD,
    List.getElem?_eq_getElem (by simpa using hi)]
  simp

theorem sorted_lt_countP (hs : List ℕ) (hsort : List.Sorted (· ≤ ·) hs)
    (c : ℕ) : ∀ k, (k < hs.countP (fun z => decide (z < c))) ↔
      (k < hs.length ∧ hs.getD k 0 < c) := by
  induction hs with
  | nil => intro k; simp
  | cons x rest ih =>
      intro k
      have hxmin : ∀ y ∈ rest, x ≤ y := (List.sorted_cons.mp hsort).1
      have ih' := ih (List.sorted_cons.mp hsort).2
      by_cases hx : x < c
      · rw [List.countP_cons, decide_eq_true hx, if_pos rfl]
        cases k with
        | zero =>
            simp only [List.length_cons, List.getD_cons_zero]
            constructor
            · intro _; exact ⟨Nat.succ_pos _, hx⟩
            · intro _; omega
        | succ k =>
            rw [List.length_cons, List.getD_cons_succ]
            rw [show (k + 1 < rest.countP (fun z => decide (z < c)) + 1)
              ↔ (k < rest.countP (fun z => decide (z < c))) from by omega]
            rw [ih' k]
            omega
      · have hrest0 : rest.countP (fun z => decide (z < c)) = 0 := by
          rw [List.countP_eq_zero]
          intro z hz
          have := hxmin z hz
          simp only [decide_eq_true_eq]
          omega
        rw [List.countP_cons, decide_eq_false hx, if_neg (by simp),
          hrest0]
        simp only [Nat.add_zero, Nat.not_lt_zero, false_iff, not_and]
        intro hk
        cases k with
        | zero =>
            simp only [List.getD_cons_zero]
            omega
        | succ k =>
            rw [List.getD_cons_succ]
            have hkr : k < rest.length := by
              simpa using hk
            have hmem : rest.getD k 0 ∈ rest := by
              rw [List.getD_eq_getElem?_getD,
                List.getElem?_eq_getElem hkr]
              exact List.getElem_mem hkr
            have := hxmin _ hmem
            omega

theorem prefillHeadSegments_char (segs : List ℕ) (S : ℕ) (heads : List ℕ)
    (hlen : segs.length = S + 1) (hS1 : 1 ≤ S)
    (hmono : List.Sorted (· ≤ ·) segs)
    (hsorted : List.Sorted (· ≤ ·) heads)
    (hlow : ∀ x ∈ heads, segs.getD 0 0 ≤ x)
    (hub : ∀ x ∈ heads, x < segs.getD S 0)
    (hcov : ∀ i, i < S → ∃ x ∈ heads,
      segs.getD i 0 ≤ x ∧ x < segs.getD (i + 1) 0) :
    prefillHeadSegments segs heads
      = ((List.range S).map (fun i => heads.countP
          (fun z => decide (z < segs.getD i 0))),
         (List.range S).map (fun i => heads.countP
          (fun z => decide (z < segs.getD (i + 1) 0)))) := by
  have hsegs : ∀ a b, a ≤ b → b ≤ S → segs.getD a 0 ≤ segs.getD b 0 := by
    intro a b hab hb
    exact sorted_getD_mono segs hmono a b hab (by omega)
  have hmain := prefillHeadLoop_char segs S hsegs heads 1 0 [0] []
    hsorted hub (fun i hi hiS => hcov i hiS) le_rfl hS1
  unfold prefillHeadSegments
  rw [hmain]
  have hc0 : heads.countP (fun z => decide (z < segs.getD 0 0)) = 0 := by
    rw [List.countP_eq_zero]
    intro z hz
    have := hlow z hz
    simp only [decide_eq_true_eq]
    omega
  have hSS : S = (S - 1) + 1 := by omega
  refine Prod.ext ?_ ?_
  · show [0] ++ (List.range (S - 1)).map
        (fun t => 0 + heads.countP
          (fun z => decide (z < segs.getD (1 + t) 0)))
      = (List.range S).map (fun i => heads.countP
          (fun z => decide (z < segs.getD i 0)))
    conv_rhs => rw [hSS, map_range_succ_cons]
    rw [hc0]
    show (0 : ℕ) :: _ = 0 :: _
    refine congrArg (fun z => (0 : ℕ) :: z) ?_
    refine List.map_congr_left (fun t ht => ?_)
    rw [show 1 + t = t + 1 by omega]
    omega
  · show [] ++ (List.range (S - 1 + 1)).map
        (fun t => 0 + heads.countP
          (fun z => decide (z < segs.getD (1 + t) 0)))
      = (List.range S).map (fun i => heads.countP
          (fun z => decide (z < segs.getD (i + 1) 0)))
    rw [List.nil_append, show S - 1 + 1 = S by omega]
    refine List.map_congr_left (fun t ht => ?_)
    rw [show 1 + t = t + 1 by omega]
    omega

/-! Claim C9 -/

/-- Claim C9: when a selected-token-position list is supplied and the
positions are increasing, within the batch, and hit every segment, the
recomputed boundaries assign to segment `i` the counts of selected
positions before boundary `i` (start) and boundary `i+1` (end); these
`[start, end)` ranges are exactly the contiguous runs of selected-position
indices whose positions fall in the segment's boundary window, they
partition `0..heads.length` in order (first start `0`, consecutive ranges
abutting, last end `heads.length`); and on the variable-length-kernel path
every rank group's `segment_starts`/`segment_ends` are taken from these
filtered boundaries, sliced by the group's positions, instead of the raw
metadata boundaries. -/
theorem C9_position_filtered_boundaries {α : Type}
    (adapter_weights : List (ℕ × AdapterWeightsT α))
    (meta : AdapterBatchMetadata) (layer_name : String)
    (heads : List ℕ) (r : ℕ) (rs : RankSegments)
    (hlen : meta.adapter_segments.length
      = meta.segment_indices.length + 1)
    (hS1 : 1 ≤ meta.segment_indices.length)
    (hmono : List.Sorted (· ≤ ·) meta.adapter_segments)
    (hsorted : List.Sorted (· < ·) heads)
    (hlow : ∀ x ∈ heads, meta.adapter_segments.getD 0 0 ≤ x)
    (hub : ∀ x ∈ heads, x < meta.adapter_segments.getD
      meta.segment_indices.length 0)
    (hcov : ∀ i, i < meta.segment_indices.length → ∃ x ∈ heads,
      meta.adapter_segments.getD i 0 ≤ x
        ∧ x < meta.adapter_segments.getD (i + 1) 0)
    (h : (BatchLoraWeights.load adapter_weights meta layer_name true
      (some heads)).isSome = true)
    (hrs : (BatchLoraWeights.load adapter_weights meta layer_name true
        (some heads)).map (fun b => alookup b.rank_data r)
      = some (some rs)) :
    (prefillHeadSegments meta.adapter_segments heads).1
      = (List.range meta.segment_indices.length).map
          (fun i => heads.countP
            (fun z => decide (z < meta.adapter_segments.getD i 0)))
    ∧ (prefillHeadSegments meta.adapter_segments heads).2
      = (List.range meta.segment_indices.length).map
          (fun i => heads.countP
            (fun z => decide (z < meta.adapter_segments.getD (i + 1) 0)))
    ∧ (∀ i, i < meta.segment_indices.length → ∀ k, k < heads.length →
        (((prefillHeadSegments meta.adapter_segments heads).1.getD i 0 ≤ k
          ∧ k < (prefillHeadSegments meta.adapter_segments
              heads).2.getD i 0)
          ↔ (meta.adapter_segments.getD i 0 ≤ heads.getD k 0
             ∧ heads.getD k 0
               < meta.adapter_segments.getD (i + 1) 0)))
    ∧ (prefillHeadSegments meta.adapter_segments heads).1.getD 0 0 = 0
    ∧ (∀ i, i + 1 < meta.segment_indices.length →
        (prefillHeadSegments meta.adapter_segments heads).1.getD (i + 1) 0
          = (prefillHeadSegments meta.adapter_segments heads).2.getD i 0)
    ∧ (prefillHeadSegments meta.adapter_segments heads).2.getD
        (meta.segment_indices.length - 1) 0 = heads.length
    ∧ rs.segment_starts = some ((rankPositions
        (filteredAdapters adapter_weights) r meta.segment_indices 0).map
          (fun i => (prefillHeadSegments meta.adapter_segments
            heads).1.getD i 0))
    ∧ rs.segment_ends = some ((rankPositions
        (filteredAdapters adapter_weights) r meta.segment_indices 0).map
          (fun i => (prefillHeadSegments meta.adapter_segments
            heads).2.getD i 0)) := by
  have hsle : List.Sorted (· ≤ ·) heads :=
    hsorted.imp (fun hab => le_of_lt hab)
  have hchar := prefillHeadSegments_char meta.adapter_segments
    meta.segment_indices.length heads hlen hS1 hmono hsle hlow hub hcov
  have hstarts : ∀ i, i < meta.segment_indices.length →
      (prefillHeadSegments meta.adapter_segments heads).1.getD i 0
        = heads.countP
            (fun z => decide (z < meta.adapter_segments.getD i 0)) := by
    intro i hi
    rw [hchar]
    show ((List.range _).map _).getD i 0 = _
    rw [getD_map_of_lt _ _ i 0 0 (by simpa using hi), range_getD _ i hi]
  have hends : ∀ i, i < meta.segment_indices.length →
      (prefillHeadSegments meta.adapter_segments heads).2.getD i 0
        = heads.countP
            (fun z => decide
              (z < meta.adapter_segments.getD (i + 1) 0)) := by
    intro i hi
    rw [hchar]
    show ((List.range _).map _).getD i 0 = _
    rw [getD_map_of_lt _ _ i 0 0 (by simpa using hi), range_getD _ i hi]
  have hlink : rs.segment_starts = some ((rankPositions
      (filteredAdapters adapter_weights) r meta.segment_indices 0).map
        (fun i => (prefillHeadSegments meta.adapter_segments
          heads).1.getD i 0))
      ∧ rs.segment_ends = some ((rankPositions
        (filteredAdapters adapter_weights) r meta.segment_indices 0).map
          (fun i => (prefillHeadSegments meta.adapter_segments
            heads).2.getD i 0)) := by
    cases hb : BatchLoraWeights.load adapter_weights meta layer_name true
        (some heads) with
    | none => rw [hb] at h; simp at h
    | some b =>
        rw [hb] at hrs
        simp only [Option.map_some', Option.some.injEq] at hrs
        simp only [BatchLoraWeights.load] at hb
        split at hb
        · exact Option.noConfusion hb
        · split at hb
          · exact Option.noConfusion hb
          · cases hb
            have husg : (true || decide (BGMV_MAX_RANK <
                (segmentRanks (filteredAdapters adapter_weights)
                  meta.segment_indices).foldl Nat.max 0)) = true :=
              Bool.true_or _
            rw [husg] at hrs
            rw [alookup_buildRankData] at hrs
            cases hri : alookup (rankIndices (filteredAdapters
                adapter_weights) meta.segment_indices) r with
            | none => rw [hri] at hrs; exact Option.noConfusion hrs
            | some inds =>
                rw [hri] at hrs
                simp only [Option.map_some', Option.some.injEq] at hrs
                rw [alookup_rankIndices] at hri
                by_cases hrp : rankPositions (filteredAdapters
                    adapter_weights) r meta.segment_indices 0 = []
                · rw [if_pos hrp] at hri
                  exact Option.noConfusion hri
                · rw [if_neg hrp] at hri
                  have hinds : inds = rankPositions (filteredAdapters
                      adapter_weights) r meta.segment_indices 0 :=
                    ((Option.some.injEq _ _).mp hri).symm
                  subst hinds
                  subst hrs
                  constructor
                  · simp only [buildRankSegment, eq_self_iff_true,
                      if_true, Option.map_some']
                  · simp only [buildRankSegment, eq_self_iff_true,
                      if_true, Option.map_some']
  refine ⟨?_, ?_, ?_, ?_, ?_, ?_, hlink.1, hlink.2⟩
  · rw [hchar]
  · rw [hchar]
  · intro i hi k hk
    rw [hstarts i hi, hends i hi]
    have h1 := sorted_lt_countP heads hsle
      (meta.adapter_segments.getD i 0) k
    have h2 := sorted_lt_countP heads hsle
      (meta.adapter_segments.getD (i + 1) 0) k
    omega
  · rw [hstarts 0 (by omega)]
    rw [List.countP_eq_zero]
    intro z hz
    have := hlow z hz
    simp only [decide_eq_true_eq]
    omega
  · intro i hi1
    rw [hstarts (i + 1) hi1, hends i (by omega)]
  · rw [hends (meta.segment_indices.length - 1) (by omega)]
    rw [show meta.segment_indices.length - 1 + 1
      = meta.segment_indices.length by omega]
    rw [List.countP_eq_length]
    intro z hz
    simp only [decide_eq_true_eq]
    exact hub z hz

/-- Witness for C9: the filtered-boundary properties at the concrete
prefill batch with selected positions `[0, 3, 5, 7, 9]`, rank group 8. -/
theorem C9_position_filtered_boundaries_witness :
    exMeta.adapter_segments.length = exMeta.segment_indices.length + 1
    ∧ 1 ≤ exMeta.segment_indices.length
    ∧ List.Sorted (· ≤ ·) exMeta.adapter_segments
    ∧ List.Sorted (· < ·) ([0, 3, 5, 7, 9] : List ℕ)
    ∧ (∀ x ∈ ([0, 3, 5, 7, 9] : List ℕ),
        exMeta.adapter_segments.getD 0 0 ≤ x)
    ∧ (∀ x ∈ ([0, 3, 5, 7, 9] : List ℕ),
        x < exMeta.adapter_segments.getD exMeta.segment_indices.length 0)
    ∧ (∀ i, i < exMeta.segment_indices.length →
        ∃ x ∈ ([0, 3, 5, 7, 9] : List ℕ),
          exMeta.adapter_segments.getD i 0 ≤ x
            ∧ x < exMeta.adapter_segments.getD (i + 1) 0)
    ∧ (BatchLoraWeights.load exAdapters exMeta "q_proj" true
        (some [0, 3, 5, 7, 9])).isSome = true
    ∧ (BatchLoraWeights.load exAdapters exMeta "q_proj" true
        (some [0, 3, 5, 7, 9])).map (fun b => alookup b.rank_data 8)
      = some (some exRS8sg)
    ∧ ((prefillHeadSegments exMeta.adapter_segments [0, 3, 5, 7, 9]).1
        = (List.range exMeta.segment_indices.length).map
            (fun i => List.countP
              (fun z => decide (z < exMeta.adapter_segments.getD i 0))
              [0, 3, 5, 7, 9])
      ∧ (prefillHeadSegments exMeta.adapter_segments [0, 3, 5, 7, 9]).2
        = (List.range exMeta.segment_indices.length).map
            (fun i => List.countP
              (fun z => decide
                (z < exMeta.adapter_segments.getD (i + 1) 0))
              [0, 3, 5, 7, 9])
      ∧ (∀ i, i < exMeta.segment_indices.length →
          ∀ k, k < ([0, 3, 5, 7, 9] : List ℕ).length →
          (((prefillHeadSegments exMeta.adapter_segments
              [0, 3, 5, 7, 9]).1.getD i 0 ≤ k
            ∧ k < (prefillHeadSegments exMeta.adapter_segments
                [0, 3, 5, 7, 9]).2.getD i 0)
            ↔ (exMeta.adapter_segments.getD i 0
                ≤ ([0, 3, 5, 7, 9] : List ℕ).getD k 0
               ∧ ([0, 3, 5, 7, 9] : List ℕ).getD k 0
                 < exMeta.adapter_segments.getD (i + 1) 0)))
      ∧ (prefillHeadSegments exMeta.adapter_segments
          [0, 3, 5, 7, 9]).1.getD 0 0 = 0
      ∧ (∀ i, i + 1 < exMeta.segment_indices.length →
          (prefillHeadSegments exMeta.adapter_segments
            [0, 3, 5, 7, 9]).1.getD (i + 1) 0
            = (prefillHeadSegments exMeta.adapter_segments
                [0, 3, 5, 7, 9]).2.getD i 0)
      ∧ (prefillHeadSegments exMeta.adapter_segments
          [0, 3, 5, 7, 9]).2.getD
            (exMeta.segment_indices.length - 1) 0
        = ([0, 3, 5, 7, 9] : List ℕ).length
      ∧ exRS8sg.segment_starts = some ((rankPositions
          (filteredAdapters exAdapters) 8 exMeta.segment_indices 0).map
            (fun i => (prefillHeadSegments exMeta.adapter_segments
              [0, 3, 5, 7, 9]).1.getD i 0))
      ∧ exRS8sg.segment_ends = some ((rankPositions
          (filteredAdapters exAdapters) 8 exMeta.segment_indices 0).map
            (fun i => (prefillHeadSegments exMeta.adapter_segments
              [0, 3, 5, 7, 9]).2.getD i 0))) :=
  ⟨by decide, by decide, by decide, by decide, by decide, by decide,
    by decide, by decide, by decide,
    C9_position_filtered_boundaries exAdapters exMeta "q_proj"
      [0, 3, 5, 7, 9] 8 exRS8sg (by decide) (by decide) (by decide)
      (by decide) (by decide) (by decide) (by decide) (by decide)
      (by decide)⟩

end Lorax
